import Mathlib

/-!
Verification of the fantasy-basketball ranking engine
(`src/lib/fantasy-ranking.ts`, `src/lib/fantasy-ranking-cache.ts`).

Modelling conventions:
* A JavaScript `Date` is modelled by its epoch value in integer
  milliseconds (`Int`).  A *normalized* date (the output of the source's
  `normalizeDate`, which truncates to midnight UTC) is modelled by its day
  index: the number of days since 1970-01-01 UTC.  The runtime timezone is
  assumed to be UTC, so the local-time getters (`getFullYear`, `getDay`,
  `setDate`, ...) used by the source coincide with their UTC versions; under
  that assumption day arithmetic on day indices is exact.
* `Math.floor` of a quotient of integers is integer floor division
  (`Int.fdiv`).
* JavaScript `Map` objects preserve insertion order; they are modelled by
  association lists where `set` updates the first matching key in place and
  appends new keys at the end.
-/

namespace Fantasy

/-- Milliseconds in one day. -/
def dayMs : Int := 86400000

/-- The source's normalizeDate on a Date value: truncation to midnight UTC,
returned as a day index (models building Date.UTC from the date's year, month
and day, with the runtime timezone assumed to be UTC). -/
def normMs (t : Int) : Int := t.fdiv dayMs

/-- Day of week of a day index, 0 = Sunday .. 6 = Saturday (JS getDay).
1970-01-01 was a Thursday (= 4). -/
def dayOfWeek (d : Int) : Int := (d + 4).emod 7

/-- getWeekNumber from the source, on already-normalized day indices:
weeks are counted in 7-day blocks from the season start, clamped below at 1.
diffDays is exact because both dates are midnight-aligned. -/
def getWeekNumber (dDay sDay : Int) : Int :=
  max 1 ((dDay - sDay).fdiv 7 + 1)

/-- getWeekDates from the source, on day indices: walk (weekNumber-1) weeks
forward from the season start, snap back to the Monday of that week, and
return the 7-day inclusive range.  The source sets the end time to
23:59:59.999 of the last day; for midnight-normalized dates, membership in
the range is exactly `start ≤ d ∧ d ≤ start + 6` on day indices. -/
def getWeekDates (weekNumber : Int) (sDay : Int) : Int × Int :=
  let start := sDay + (weekNumber - 1) * 7
  let dow := dayOfWeek start
  let diffToMonday := if dow = 0 then -6 else 1 - dow
  let start := start + diffToMonday
  (start, start + 6)

/-- Membership of a normalized date in the inclusive range returned by
getWeekDates. -/
def inWeekRange (d : Int) (r : Int × Int) : Bool :=
  decide (r.1 ≤ d) && decide (d ≤ r.2)

/-! ### Calendar arithmetic

Day indices (days since 1970-01-01) versus proleptic-Gregorian civil dates,
following the standard era-based algorithms, used to model the JavaScript
Date component constructors. -/

/-- Days since 1970-01-01 of the civil date y-m-d (1 ≤ m ≤ 12). -/
def daysFromCivil (y m d : Int) : Int :=
  let y' := if m ≤ 2 then y - 1 else y
  let era := y'.fdiv 400
  let yoe := y' - era * 400
  let mp := if 2 < m then m - 3 else m + 9
  let doy := (153 * mp + 2).fdiv 5 + d - 1
  let doe := yoe * 365 + yoe.fdiv 4 - yoe.fdiv 100 + doy
  era * 146097 + doe - 719468

/-- Civil date (y, m, d) of a day index (inverse of daysFromCivil). -/
def civilFromDays (z : Int) : Int × Int × Int :=
  let z := z + 719468
  let era := z.fdiv 146097
  let doe := z - era * 146097
  let yoe := (doe - doe.fdiv 1460 + doe.fdiv 36524 - doe.fdiv 146096).fdiv 365
  let y := yoe + era * 400
  let doy := doe - (365 * yoe + yoe.fdiv 4 - yoe.fdiv 100)
  let mp := (5 * doy + 2).fdiv 153
  let d := doy - (153 * mp + 2).fdiv 5 + 1
  let m := if mp < 10 then mp + 3 else mp - 9
  (if m ≤ 2 then y + 1 else y, m, d)

/-- Gregorian leap year test. -/
def isLeap (y : Int) : Bool :=
  (y.emod 4 = 0 && y.emod 100 ≠ 0) || y.emod 400 = 0

/-- Number of days in month m of year y (1 ≤ m ≤ 12). -/
def daysInMonth (y m : Int) : Int :=
  if m = 2 then (if isLeap y then 29 else 28)
  else if m = 4 ∨ m = 6 ∨ m = 9 ∨ m = 11 then 30
  else 31

/-! ### JavaScript Date and parseInt modelling

These model the ECMAScript builtins the source calls; they are external to
the repository.  A constructed date is valid only when its epoch value is
within the ECMAScript time range (|ms| ≤ 8.64e15, i.e. |day| ≤ 1e8);
an out-of-range construction yields an Invalid Date, modelled as `none`. -/

/-- The ECMAScript time-range bound, in days. -/
def jsMaxDay : Int := 100000000

/-- Models the ECMAScript constructor call new Date(year, monthIndex, day)
(local time, with the runtime timezone assumed UTC): years 0..99 map to
1900..1999, out-of-range month indices and days roll over arithmetically,
and the result is the day index, or none for an Invalid Date. -/
def jsDateFromYMD (y mIdx d : Int) : Option Int :=
  let y := if 0 ≤ y ∧ y ≤ 99 then y + 1900 else y
  let ym := y * 12 + mIdx
  let day := daysFromCivil (ym.fdiv 12) (ym.emod 12 + 1) 1 + (d - 1)
  if day.natAbs ≤ jsMaxDay.natAbs then some day else none

/-- Models the final normalization step of the source's normalizeDate on a
valid Date: new Date(Date.UTC(d.getFullYear(), d.getMonth(), d.getDate())).
Under the UTC-timezone assumption the components are the civil date of the
day index; Date.UTC maps years 0..99 to 1900..1999, so only such years are
changed. -/
def jsNormalizeDay (day : Int) : Int :=
  let c := civilFromDays day
  if 0 ≤ c.1 ∧ c.1 ≤ 99 then daysFromCivil (c.1 + 1900) c.2.1 c.2.2 else day

/-- Numeric value of a list of decimal digit characters. -/
def digitsVal (cs : List Char) : Int :=
  cs.foldl (fun a c => a * 10 + (c.toNat - 48 : Int)) 0

/-- Splits the longest prefix of decimal digits off a character list. -/
def takeDigits : List Char → List Char × List Char
  | [] => ([], [])
  | c :: cs =>
    if c.isDigit then
      let r := takeDigits cs
      (c :: r.1, r.2)
    else ([], c :: cs)

/-- Value of a hexadecimal digit character, if it is one. -/
def hexDigitVal (c : Char) : Option Int :=
  if c.isDigit then some ((c.toNat : Int) - 48)
  else if 'a' ≤ c ∧ c ≤ 'f' then some ((c.toNat : Int) - 87)
  else if 'A' ≤ c ∧ c ≤ 'F' then some ((c.toNat : Int) - 55)
  else none

/-- Splits the longest prefix of hexadecimal digits off a character list. -/
def takeHexDigits : List Char → List Char × List Char
  | [] => ([], [])
  | c :: cs =>
    if (hexDigitVal c).isSome then
      let r := takeHexDigits cs
      (c :: r.1, r.2)
    else ([], c :: cs)

/-- Numeric value of a list of hexadecimal digit characters. -/
def hexVal (cs : List Char) : Int :=
  cs.foldl (fun a c => a * 16 + (hexDigitVal c).getD 0) 0

/-- Models ECMAScript parseInt(string) with no radix argument: leading
whitespace is skipped, an optional sign is read, a 0x/0X prefix selects
hexadecimal, and the longest prefix of digits is converted; no digits give
NaN, modelled as none. -/
def jsParseInt (s : String) : Option Int :=
  let cs := s.toList.dropWhile Char.isWhitespace
  let (sign, cs) :=
    match cs with
    | '-' :: rest => ((-1 : Int), rest)
    | '+' :: rest => ((1 : Int), rest)
    | rest => ((1 : Int), rest)
  match cs with
  | '0' :: 'x' :: rest =>
    match takeHexDigits rest with
    | ([], _) => none
    | (ds, _) => some (sign * hexVal ds)
  | '0' :: 'X' :: rest =>
    match takeHexDigits rest with
    | ([], _) => none
    | (ds, _) => some (sign * hexVal ds)
  | _ =>
    match takeDigits cs with
    | ([], _) => none
    | (ds, _) => some (sign * digitsVal ds)

/-! ### The Date Normalizer (normalizeDate in fantasy-ranking.ts)

String dates are parsed to a normalized day index.  The source tries, in
order: the "MMM DD, YYYY" pattern, the MM/DD/YYYY pattern (when the string
contains a slash), the compact YYYYMMDD pattern, and finally hands the
string to the Date constructor (documented in the source as the
YYYY-MM-DD / ISO format).  An invalid result yields the 1970-01-01 UTC
sentinel (day 0) with a logged warning. -/

/-- Drops one or more leading whitespace characters (the regex \s+);
none when the list does not start with whitespace. -/
def takeWs1 (cs : List Char) : Option (List Char) :=
  match cs with
  | c :: rest => if c.isWhitespace then some (rest.dropWhile Char.isWhitespace) else none
  | [] => none

/-- Matches the anchored pattern of three ASCII letters, whitespace, one or
two digits, a comma, whitespace, and exactly four digits: on success returns
the month name, day value and year value. -/
def matchMmmDdYyyy (s : String) : Option (String × Int × Int) :=
  match s.toList with
  | a :: b :: c :: rest =>
    if a.isAlpha && b.isAlpha && c.isAlpha then
      match takeWs1 rest with
      | none => none
      | some rest =>
        match takeDigits rest with
        | (ds, rest) =>
          if ds.length = 1 ∨ ds.length = 2 then
            match rest with
            | ',' :: rest =>
              match takeWs1 rest with
              | none => none
              | some rest =>
                match takeDigits rest with
                | (ys, rest) =>
                  if ys.length = 4 ∧ rest = [] then
                    some (⟨[a, b, c]⟩, digitsVal ds, digitsVal ys)
                  else none
            | _ => none
          else none
    else none
  | _ => none

/-- The source's English month-name table; indexOf gives the 0-based month
index, -1 (here none) when the three letters are not an exact entry. -/
def monthIndex (name : String) : Option Int :=
  let names := ["Jan", "Feb", "Mar", "Apr", "May", "Jun",
                "Jul", "Aug", "Sep", "Oct", "Nov", "Dec"]
  match names.indexOf? name with
  | some i => some (i : Int)
  | none => none

/-- Modelled from the spec: the untyped new Date(string) fallback of the
Date Normalizer.  The spec documents the ISO YYYY-MM-DD date-only format
for this branch; it parses to midnight UTC, with the month and day ranges
validated, and every other string is treated as unparsable (none).
Engine-specific legacy string formats are outside the model. -/
def jsDateParse (s : String) : Option Int :=
  match s.toList with
  | [y1, y2, y3, y4, '-', m1, m2, '-', d1, d2] =>
    if y1.isDigit && y2.isDigit && y3.isDigit && y4.isDigit &&
       m1.isDigit && m2.isDigit && d1.isDigit && d2.isDigit then
      let y := digitsVal [y1, y2, y3, y4]
      let m := digitsVal [m1, m2]
      let d := digitsVal [d1, d2]
      if 1 ≤ m ∧ m ≤ 12 ∧ 1 ≤ d ∧ d ≤ daysInMonth y m then
        some (daysFromCivil y m d)
      else none
    else none
  | _ => none

/-- Splitting a character list at every slash (String.prototype.split with
separator "/"). -/
def splitOnSlash : List Char → List (List Char)
  | [] => [[]]
  | c :: cs =>
    match splitOnSlash cs with
    | h :: t => if c = '/' then [] :: h :: t else (c :: h) :: t
    | [] => [[c]]

/-- The candidate Date produced by the parsing branches of normalizeDate
for a string input, before the validity check: none models an Invalid Date. -/
def parseDateStr (s : String) : Option Int :=
  match matchMmmDdYyyy s with
  | some r =>
    match monthIndex r.1 with
    | some mi => jsDateFromYMD r.2.2 mi r.2.1
    | none => jsDateParse s
  | none =>
    if s.toList.contains '/' then
      match splitOnSlash s.toList with
      | [p1, p2, p3] =>
        match jsParseInt ⟨p3⟩, jsParseInt ⟨p1⟩, jsParseInt ⟨p2⟩ with
        | some y, some mo, some d => jsDateFromYMD y (mo - 1) d
        | _, _, _ => none
      | _ => jsDateParse s
    else if s.toList.length = 8 ∧ s.toList.all Char.isDigit then
      jsDateFromYMD (digitsVal (s.toList.take 4))
        (digitsVal ((s.toList.drop 4).take 2) - 1)
        (digitsVal (s.toList.drop 6))
    else jsDateParse s

/-- normalizeDate on a string input: parse via the format branches, return
the 1970-01-01 sentinel (day 0) for an invalid date, otherwise truncate the
valid date to its day (the final Date.UTC re-construction). -/
def normalizeDateStr (s : String) : Int :=
  match parseDateStr s with
  | some day => jsNormalizeDay day
  | none => 0

/-! ### Stable sorting

Array.prototype.sort (and the database ORDER BY used by the cache) are
modelled by a stable insertion sort: with a consistent comparator the
ECMAScript sort produces the stably-sorted array. -/

/-- Stable insertion of an element: it is placed before the first existing
element b with le a b, so ties keep the earlier element first. -/
def insertLe (le : α → α → Bool) (a : α) : List α → List α
  | [] => [a]
  | b :: bs => if le a b then a :: b :: bs else b :: insertLe le a bs

/-- Stable sort by the boolean comparator le. -/
def jsSort (le : α → α → Bool) (l : List α) : List α :=
  l.foldr (insertLe le) []

/-! ### Data model

External rows as the ranking engine consumes them.  Nullable columns are
Option-valued; the source's JavaScript truthiness tests on strings treat
both a missing value and the empty string as absent. -/

/-- A purchase transaction row, joined with the buyer and seller teams'
user ids (the join can fail, leaving the user id absent). -/
structure Transaction where
  buyerTeamId : String
  sellerTeamId : String
  buyerUserId : Option String
  sellerUserId : Option String
  playerId : Int
  playerName : String
  createdAt : Int
deriving DecidableEq, Repr

/-- A players_on_team row joined with its team's user id; purchasedAt is
nullable and falls back to createdAt. -/
structure RosterRow where
  teamId : String
  playerId : Int
  playerName : String
  userId : Option String
  purchasedAt : Option Int
  createdAt : Int
deriving DecidableEq, Repr

/-- An entry of the per-player working history inside
getPlayerOwnershipPeriods. -/
structure WorkPeriod where
  userId : String
  teamId : String
  purchaseDate : Int
  saleDate : Option Int
deriving DecidableEq, Repr

/-- PlayerOwnershipPeriod from the source. -/
structure OwnershipPeriod where
  userId : String
  teamId : String
  playerId : Int
  playerName : String
  purchaseDate : Int
  saleDate : Option Int
deriving DecidableEq, Repr

/-- PlayerGameLog from the source: a provider-native date string and the
points scored. -/
structure PlayerGameLog where
  date : String
  points : Int
deriving DecidableEq, Repr

/-- A user_teams row as loaded by calculateRankings. -/
structure Team where
  id : String
  userId : String
  teamName : String
deriving DecidableEq, Repr

/-- WeeklyPoints from the source, with week start and end as day indices. -/
structure WeeklyPoints where
  weekNumber : Int
  weekStartDate : Int
  weekEndDate : Int
  points : Int
deriving DecidableEq, Repr

/-- TeamRanking from the source; the insertion-ordered Map weeklyBreakdown
is an association list. -/
structure TeamRanking where
  userId : String
  teamId : String
  teamName : String
  totalPoints : Int
  weeklyBreakdown : List (Int × Int)
deriving DecidableEq, Repr

/-- JavaScript truthiness of a nullable string: null, undefined and the
empty string are falsy. -/
def isFalsyStr : Option String → Bool
  | none => true
  | some s => s.data.isEmpty

/-! ### The Ownership Interval Reconstructor (getPlayerOwnershipPeriods)

The working state playerHistoryMap is an insertion-ordered map from
playerId to that player's list of working periods. -/

/-- The insertion-ordered playerHistoryMap. -/
abbrev Hist := List (Int × List WorkPeriod)

/-- Map lookup; a missing player has the empty history (the source creates
an empty entry before using it). -/
def histGet : Hist → Int → List WorkPeriod
  | [], _ => []
  | e :: es, pid => if e.1 = pid then e.2 else histGet es pid

/-- Map write: updates the first entry with the key in place, appends a new
entry at the end otherwise (JS Map insertion-order semantics). -/
def histSet : Hist → Int → List WorkPeriod → Hist
  | [], pid, h => [(pid, h)]
  | e :: es, pid, h => if e.1 = pid then (pid, h) :: es else e :: histSet es pid h

/-- The close step of one transaction: history.find(...) returns the first
period of the seller's user and team that is still open, and its saleDate
is set; when no such period exists the history is unchanged (no error). -/
def closeFirstOpen (u tm : String) (t : Int) : List WorkPeriod → List WorkPeriod
  | [] => []
  | p :: ps =>
    if p.userId = u ∧ p.teamId = tm ∧ p.saleDate = none then
      { p with saleDate := some t } :: ps
    else p :: closeFirstOpen u tm t ps

/-- Step 1 of the reconstructor, for one transaction: transactions whose
buyer or seller user id is missing (or empty) are skipped with a warning;
otherwise the seller's first still-open period is closed at createdAt and a
new open period for the buyer is appended. -/
def processTx (m : Hist) (tx : Transaction) : Hist :=
  if isFalsyStr tx.buyerUserId || isFalsyStr tx.sellerUserId then m
  else
    let bu := tx.buyerUserId.getD ""
    let su := tx.sellerUserId.getD ""
    let h := closeFirstOpen su tx.sellerTeamId tx.createdAt (histGet m tx.playerId)
    histSet m tx.playerId (h ++ [⟨bu, tx.buyerTeamId, tx.createdAt, none⟩])

/-- Step 1 over the whole (chronologically ordered) transaction list. -/
def processTransactions (txs : List Transaction) : Hist :=
  txs.foldl processTx []

/-- The roster row's purchase date: purchased_at when present, the row
creation time otherwise. -/
def purchaseOf (r : RosterRow) : Int :=
  match r.purchasedAt with
  | some t => t
  | none => r.createdAt

/-- Step 2 of the reconstructor, for one current roster row: rows whose
joined user id is missing are skipped; when the working set has an open
period for exactly this user and team, its purchaseDate is reused,
otherwise a fresh open period starts at the roster row's own date. -/
def rosterEmit (m : Hist) (acc : List OwnershipPeriod) (r : RosterRow) :
    List OwnershipPeriod :=
  if isFalsyStr r.userId then acc
  else
    let uid := r.userId.getD ""
    match (histGet m r.playerId).find?
        (fun p => p.userId == uid && p.teamId == r.teamId && p.saleDate == none) with
    | some p => acc ++ [⟨uid, r.teamId, r.playerId, r.playerName, p.purchaseDate, none⟩]
    | none => acc ++ [⟨uid, r.teamId, r.playerId, r.playerName, purchaseOf r, none⟩]

/-- Step 2 over the roster snapshot. -/
def rosterStep (m : Hist) (roster : List RosterRow) : List OwnershipPeriod :=
  roster.foldl (rosterEmit m) []

/-- Player name resolution in step 3: the current roster row's name, else a
transaction's recorded name, else a generated label; empty strings are
falsy and fall through. -/
def playerNameFor (roster : List RosterRow) (txs : List Transaction) (pid : Int) :
    String :=
  let fallback :=
    match txs.find? (fun t => t.playerId == pid) with
    | some t => if t.playerName.data.isEmpty then s!"Jugador {pid}" else t.playerName
    | none => s!"Jugador {pid}"
  match roster.find? (fun r => r.playerId == pid) with
  | some r => if r.playerName.data.isEmpty then fallback else r.playerName
  | none => fallback

/-- The duplicate test of step 3: some period already collected has the
same playerId, userId and teamId and a purchaseDate within 1000
milliseconds; the saleDate is not compared. -/
def alreadyAdded (acc : List OwnershipPeriod) (pid : Int) (w : WorkPeriod) : Bool :=
  acc.any (fun p => p.playerId == pid && p.userId == w.userId && p.teamId == w.teamId &&
    decide ((p.purchaseDate - w.purchaseDate).natAbs < 1000))

/-- Step 3, one working period: only periods that already ended are added,
and only when the duplicate test fails. -/
def emitStep (pid : Int) (name : String) (acc : List OwnershipPeriod)
    (w : WorkPeriod) : List OwnershipPeriod :=
  match w.saleDate with
  | some s =>
    if alreadyAdded acc pid w then acc
    else acc ++ [⟨w.userId, w.teamId, pid, name, w.purchaseDate, some s⟩]
  | none => acc

/-- Step 3 over one player's working history. -/
def emitClosed (acc : List OwnershipPeriod) (pid : Int) (name : String)
    (h : List WorkPeriod) : List OwnershipPeriod :=
  h.foldl (emitStep pid name) acc

/-- getPlayerOwnershipPeriods: process the transaction log, emit one open
period per current roster row, then emit the closed historical periods
(deduplicated against what is already collected). -/
def getPlayerOwnershipPeriods (txs : List Transaction) (roster : List RosterRow) :
    List OwnershipPeriod :=
  let m := processTransactions txs
  let base := rosterStep m roster
  m.foldl (fun acc e => emitClosed acc e.1 (playerNameFor roster txs e.1) e.2) base

/-! ### The Weekly Points Aggregator (calculateWeeklyPoints) -/

/-- The game filter: a game counts iff its normalized date is on or after
the normalized purchase day and, when a sale date exists, strictly before
the normalized sale day. -/
def gameInRange (purchaseDay : Int) (saleDay : Option Int) (g : PlayerGameLog) :
    Bool :=
  let gd := normalizeDateStr g.date
  decide (purchaseDay ≤ gd) &&
    (match saleDay with
     | none => true
     | some s => decide (gd < s))

/-- The filtered game list of calculateWeeklyPoints. -/
def filteredGames (gameLogs : List PlayerGameLog) (purchaseDay : Int)
    (saleDay : Option Int) : List PlayerGameLog :=
  gameLogs.filter (gameInRange purchaseDay saleDay)

/-- Insertion-ordered additive map update: Map.set(k, (get(k) ?? 0) + v). -/
def bump (m : List (Int × Int)) (k v : Int) : List (Int × Int) :=
  match m with
  | [] => [(k, v)]
  | e :: rest => if e.1 = k then (e.1, e.2 + v) :: rest else e :: bump rest k v

/-- The default season start, new Date('2024-10-22') normalized
(a Tuesday). -/
def seasonStartDefault : Int := daysFromCivil 2024 10 22

/-- calculateWeeklyPoints: filter the log to the ownership window, group
the surviving games into week buckets, and return the buckets sorted by
week number.  purchaseDate and saleDate are raw epoch milliseconds and the
season start is an already-normalized day index (as passed by the source). -/
def calculateWeeklyPoints (gameLogs : List PlayerGameLog) (purchaseDate : Int)
    (saleDate : Option Int) (seasonStartDay : Int) : List WeeklyPoints :=
  let fg := filteredGames gameLogs (normMs purchaseDate) (saleDate.map normMs)
  let m := fg.foldl
    (fun m g => bump m (getWeekNumber (normalizeDateStr g.date) seasonStartDay) g.points) []
  jsSort (fun a b => decide (a.weekNumber ≤ b.weekNumber))
    (m.map (fun kv =>
      let r := getWeekDates kv.1 seasonStartDay
      ⟨kv.1, r.1, r.2, kv.2⟩))

/-! ### Specification vocabulary for the conservation and disjointness
properties -/

/-- Whether a game's normalized date lies in a period's normalized window:
purchase day inclusive, sale day exclusive (the filter of
calculateWeeklyPoints). -/
def inPeriodDay (g : PlayerGameLog) (p : OwnershipPeriod) : Bool :=
  gameInRange (normMs p.purchaseDate) (p.saleDate.map normMs) g

/-- The points of one game list restricted to one ownership window. -/
def periodPoints (gameLogs : List PlayerGameLog) (p : OwnershipPeriod) : Int :=
  ((filteredGames gameLogs (normMs p.purchaseDate) (p.saleDate.map normMs)).map
    (fun g => g.points)).sum

/-- The points attributed to one player in a run: the sum, over that
player's ownership periods, of the in-window points of the player's log
(each period contributes exactly this amount to its owner's ranking). -/
def attributedPoints (periods : List OwnershipPeriod)
    (logs : Int → List PlayerGameLog) (pid : Int) : Int :=
  ((periods.filter (fun p => p.playerId == pid)).map
    (fun p => periodPoints (logs p.playerId) p)).sum

/-- The union sum of one player: each game of the log counts once iff its
normalized date falls inside at least one of the player's windows. -/
def unionPoints (periods : List OwnershipPeriod)
    (logs : Int → List PlayerGameLog) (pid : Int) : Int :=
  (((logs pid).filter (fun g =>
      (periods.filter (fun p => p.playerId == pid)).any
        (fun p => inPeriodDay g p))).map (fun g => g.points)).sum

/-- Whether a millisecond instant precedes a period end (an absent sale
date is an open end). -/
def beforeEnd (x : Int) (sd : Option Int) : Bool :=
  match sd with
  | none => true
  | some s => decide (x < s)

/-- Millisecond-level interval overlap of two periods' [purchaseDate,
saleDate) windows; two periods meeting only at a shared boundary (one's
saleDate equal to the other's purchaseDate) do not overlap. -/
def overlapB (p q : OwnershipPeriod) : Bool :=
  beforeEnd p.purchaseDate q.saleDate && beforeEnd q.purchaseDate p.saleDate

/-- Whether a normalized day precedes a period's normalized end. -/
def beforeEndDay (x : Int) (sd : Option Int) : Bool :=
  match sd with
  | none => true
  | some s => decide (x < normMs s)

/-- Day-level overlap of two periods' normalized windows. -/
def dayOverlap (p q : OwnershipPeriod) : Bool :=
  beforeEndDay (normMs p.purchaseDate) q.saleDate &&
  beforeEndDay (normMs q.purchaseDate) p.saleDate

/-- The disjointness property of a period list: no two periods of the same
player overlap, boundary contact being permitted. -/
def periodsDisjoint (l : List OwnershipPeriod) : Prop :=
  List.Pairwise (fun p q => p.playerId = q.playerId → overlapB p q = false) l

/-! ### Chains of custody

Vocabulary describing a well-formed transaction log, under which the
reconstructor's working history of a player is a single chain of
back-to-back periods. -/

/-- The buyer's user id of a live transaction. -/
def buyerUser (t : Transaction) : String := t.buyerUserId.getD ""

/-- Whether a transaction survives the missing-user skip of step 1. -/
def txLive (t : Transaction) : Bool :=
  !(isFalsyStr t.buyerUserId || isFalsyStr t.sellerUserId)

/-- The live transactions of one player, in order. -/
def txsFor (txs : List Transaction) (pid : Int) : List Transaction :=
  txs.filter (fun t => t.playerId == pid && txLive t)

/-- The per-player effect of one live transaction: close the seller's first
open period at createdAt, then append the buyer's open period. -/
def procP (h : List WorkPeriod) (t : Transaction) : List WorkPeriod :=
  closeFirstOpen (t.sellerUserId.getD "") t.sellerTeamId t.createdAt h ++
    [⟨buyerUser t, t.buyerTeamId, t.createdAt, none⟩]

/-- A chain of custody starting from holder (u, tm) who acquired at pd:
each transaction is live, sold by the current holder's user and team, and
not earlier than the previous acquisition. -/
def chainedFrom (u tm : String) (pd : Int) : List Transaction → Bool
  | [] => true
  | t :: rest =>
    txLive t && (t.sellerUserId == some u) && (t.sellerTeamId == tm) &&
      decide (pd ≤ t.createdAt) &&
      chainedFrom (buyerUser t) t.buyerTeamId t.createdAt rest

/-- The working history a chain of custody produces: consecutive closed
periods and one final open period. -/
def chainFrom (u tm : String) (pd : Int) : List Transaction → List WorkPeriod
  | [] => [⟨u, tm, pd, none⟩]
  | t :: rest =>
    ⟨u, tm, pd, some t.createdAt⟩ :: chainFrom (buyerUser t) t.buyerTeamId t.createdAt rest

/-- The acquisition time of a chain's final holder. -/
def chainEnd (pd : Int) : List Transaction → Int
  | [] => pd
  | t :: rest => chainEnd t.createdAt rest

/-- A chain's final holder (user, team). -/
def lastHolder (u tm : String) : List Transaction → String × String
  | [] => (u, tm)
  | t :: rest => lastHolder (buyerUser t) t.buyerTeamId rest

/-- Well-formedness of one player's transaction log: the live transactions
form a single chain of custody. -/
def wellFormedPlayer (txs : List Transaction) (pid : Int) : Bool :=
  match txsFor txs pid with
  | [] => true
  | t :: rest => chainedFrom (buyerUser t) t.buyerTeamId t.createdAt rest

/-- Well-formedness of the whole transaction log. -/
def wellFormedTxs (txs : List Transaction) : Bool :=
  txs.all (fun t => wellFormedPlayer txs t.playerId)

/-- Whether every roster row (with a present user id) belongs to the final
holder recorded by its player's transaction chain; rows of players without
transactions are unconstrained. -/
def rosterMatchesChain (txs : List Transaction) (roster : List RosterRow) : Bool :=
  roster.all (fun r =>
    isFalsyStr r.userId ||
    (match txsFor txs r.playerId with
     | [] => true
     | t :: rest =>
       (r.userId == some (lastHolder (buyerUser t) t.buyerTeamId rest).1) &&
       (r.teamId == (lastHolder (buyerUser t) t.buyerTeamId rest).2)))

/-- The ownership period emitted for one working period in step 3. -/
def toOwn (pid : Int) (name : String) (w : WorkPeriod) : OwnershipPeriod :=
  ⟨w.userId, w.teamId, pid, name, w.purchaseDate, w.saleDate⟩

/-- Interval overlap at the working-period level. -/
def overlapW (w w' : WorkPeriod) : Bool :=
  beforeEnd w.purchaseDate w'.saleDate && beforeEnd w'.purchaseDate w.saleDate

/-- The period one roster row contributes in step 2 (none when the row's
user id is missing), as an Option. -/
def rosterPeriod (m : Hist) (r : RosterRow) : Option OwnershipPeriod :=
  if isFalsyStr r.userId then none
  else
    let uid := r.userId.getD ""
    match (histGet m r.playerId).find?
        (fun p => p.userId == uid && p.teamId == r.teamId && p.saleDate == none) with
    | some p => some ⟨uid, r.teamId, r.playerId, r.playerName, p.purchaseDate, none⟩
    | none => some ⟨uid, r.teamId, r.playerId, r.playerName, purchaseOf r, none⟩

/-! ### The Ranking Calculator (calculateRankings)

The per-player game-log fetches (performed once per distinct playerId) are
modelled by the pure function logs; a failed fetch is an empty list.  The
team-name tie-break uses the host's localeCompare, modelled by an abstract
comparator nameCmp returning a negative, zero or positive value. -/

/-- The insertion-ordered userRankingsMap, keyed by userId. -/
abbrev RankMap := List (String × TeamRanking)

/-- Map lookup by userId. -/
def mapGet : RankMap → String → Option TeamRanking
  | [], _ => none
  | e :: es, u => if e.1 = u then some e.2 else mapGet es u

/-- Map write by userId (update in place, else append). -/
def mapSet : RankMap → String → TeamRanking → RankMap
  | [], u, r => [(u, r)]
  | e :: es, u, r => if e.1 = u then (u, r) :: es else e :: mapSet es u r

/-- The total of all points accumulated in a rankings map. -/
def mapTotal (m : RankMap) : Int :=
  (m.map (fun e => e.2.totalPoints)).sum

/-- Adding one period's weekly points into a ranking: each bucket is summed
into the breakdown and into totalPoints. -/
def addWeekly (r : TeamRanking) (ws : List WeeklyPoints) : TeamRanking :=
  ws.foldl
    (fun r w =>
      { r with
        weeklyBreakdown := bump r.weeklyBreakdown w.weekNumber w.points
        totalPoints := r.totalPoints + w.points })
    r

/-- Processing one ownership period: look the ranking up by userId; when
absent, try to create it from the period's teamId via the team list; when
neither exists the period is skipped with an error log. -/
def applyPeriod (teams : List Team) (logs : Int → List PlayerGameLog)
    (m : RankMap) (p : OwnershipPeriod) : RankMap :=
  let ws := calculateWeeklyPoints (logs p.playerId) p.purchaseDate p.saleDate
    seasonStartDefault
  match mapGet m p.userId with
  | some r => mapSet m p.userId (addWeekly r ws)
  | none =>
    match teams.find? (fun t => t.id == p.teamId) with
    | some t => mapSet m p.userId (addWeekly ⟨p.userId, p.teamId, t.teamName, 0, []⟩ ws)
    | none => m

/-- The zero-point ranking a team is initialized with (used both at map
initialization and for the append of missing teams). -/
def initialRanking (t : Team) : TeamRanking :=
  ⟨t.userId, t.id, t.teamName, 0, []⟩

/-- The identity fields of one rankings-map entry: its key together with
the ranking's userId, teamId and teamName (everything except the
accumulated points). -/
def rankKeyFields (e : String × TeamRanking) : String × String × String × String :=
  (e.1, e.2.userId, e.2.teamId, e.2.teamName)

/-- The sort comparator of the final ranking as a boolean order: descending
totalPoints first, then the name comparator ascending. -/
def rankLe (nameCmp : String → String → Int) (a b : TeamRanking) : Bool :=
  if a.totalPoints = b.totalPoints then decide (nameCmp a.teamName b.teamName ≤ 0)
  else decide (b.totalPoints < a.totalPoints)

/-- calculateRankings: initialize one ranking per team keyed by the team's
user id, fold every ownership period into the map, sort, append any team
whose user is not yet ranked at zero points, and sort again.  An empty team
list short-circuits to the empty ranking. -/
def calculateRankings (teams : List Team) (txs : List Transaction)
    (roster : List RosterRow) (logs : Int → List PlayerGameLog)
    (nameCmp : String → String → Int) : List TeamRanking :=
  if teams.isEmpty then []
  else
    let periods := getPlayerOwnershipPeriods txs roster
    let init : RankMap :=
      teams.foldl (fun m t => mapSet m t.userId (initialRanking t)) []
    let final := periods.foldl (applyPeriod teams logs) init
    let rankings := jsSort (rankLe nameCmp) (final.map (fun e => e.2))
    let rankedUserIds := rankings.map (fun r => r.userId)
    let rankings := rankings ++
      (teams.filter (fun t => !rankedUserIds.contains t.userId)).map initialRanking
    jsSort (rankLe nameCmp) rankings

/-! ### The Ranking Cache (fantasy-ranking-cache.ts)

The team_rankings_cache table is a list of rows; UNIQUE(user_id, team_id)
upserts replace the previous row for the key.  JSONB serialization of the
weeklyBreakdown map enumerates integer-like keys in ascending order. -/

/-- A team_rankings_cache row. -/
structure CacheRow where
  userId : String
  teamId : String
  teamName : String
  totalPoints : Int
  weeklyBreakdown : List (Int × Int)
  calculatedAt : Int
deriving DecidableEq, Repr

/-- Breakdown keys normalized to ascending order, as Object.fromEntries
enumerates integer-like keys. -/
def sortByKey (bd : List (Int × Int)) : List (Int × Int) :=
  jsSort (fun a b => decide (a.1 ≤ b.1)) bd

/-- One upsert keyed by (user_id, team_id): the existing row for the key is
replaced in place, a new key is appended. -/
def upsertRow (store : List CacheRow) (row : CacheRow) : List CacheRow :=
  if store.any (fun r => r.userId == row.userId && r.teamId == row.teamId) then
    store.map (fun r =>
      if r.userId == row.userId && r.teamId == row.teamId then row else r)
  else store ++ [row]

/-- saveRankingsToCache: upsert one row per ranking, all stamped with the
same write time. -/
def saveRankingsToCache (store : List CacheRow) (rankings : List TeamRanking)
    (now : Int) : List CacheRow :=
  rankings.foldl
    (fun st rk =>
      upsertRow st ⟨rk.userId, rk.teamId, rk.teamName, rk.totalPoints,
        sortByKey rk.weeklyBreakdown, now⟩)
    store

/-- Reading one stored row back as a TeamRanking: parseFloat of the stored
numeric is the number itself (the || 0 fallback only maps 0 to 0), and the
breakdown keys parse back with parseInt. -/
def storedRanking (r : CacheRow) : TeamRanking :=
  ⟨r.userId, r.teamId, r.teamName, r.totalPoints, r.weeklyBreakdown⟩

/-- getRankingsFromCache: select the rows with calculated_at within
maxAgeMinutes of now, ordered by total_points descending (the database sort
is modelled as stable); an empty selection is a cache miss (none). -/
def getRankingsFromCache (store : List CacheRow) (maxAgeMinutes now : Int) :
    Option (List TeamRanking) :=
  let minCalculatedAt := now - maxAgeMinutes * 60000
  let data := jsSort (fun a b => decide (b.totalPoints ≤ a.totalPoints))
    (store.filter (fun r => decide (minCalculatedAt ≤ r.calculatedAt)))
  if data.isEmpty then none else some (data.map storedRanking)

/-- calculateAndCacheRankings: recompute, save, and return both the result
and the updated store. -/
def calculateAndCacheRankings (store : List CacheRow) (teams : List Team)
    (txs : List Transaction) (roster : List RosterRow)
    (logs : Int → List PlayerGameLog) (nameCmp : String → String → Int)
    (now : Int) : List TeamRanking × List CacheRow :=
  let rankings := calculateRankings teams txs roster logs nameCmp
  (rankings, saveRankingsToCache store rankings now)

/-- getRankingsWithCache: serve the cached snapshot when it is fresh, else
recompute and persist. -/
def getRankingsWithCache (store : List CacheRow) (maxAgeMinutes now : Int)
    (teams : List Team) (txs : List Transaction) (roster : List RosterRow)
    (logs : Int → List PlayerGameLog) (nameCmp : String → String → Int) :
    List TeamRanking × List CacheRow :=
  match getRankingsFromCache store maxAgeMinutes now with
  | some cached => (cached, store)
  | none => calculateAndCacheRankings store teams txs roster logs nameCmp now

/-! ### Concrete instance data used by the claim theorems -/

/-- Inputs reproducing the dedup suppression: the player was bought by u1
at time 0 and sold at day 2; the current roster row for the same holder has
purchase time 600 ms (within one second of 0) or 5000 ms (beyond it). -/
def c10Txs : List Transaction := [
  ⟨"T1", "TX", some "u1", some "ux", 1, "P1", 0⟩,
  ⟨"T2", "T1", some "u2", some "u1", 1, "P1", 2 * dayMs⟩ ]

/-- Roster row whose synthesized open period starts within 1000 ms of the
closed historical period's purchase time. -/
def c10RosterNear : List RosterRow := [⟨"T1", 1, "P1", some "u1", some 600, 600⟩]

/-- Roster row whose synthesized open period starts 5000 ms after the
closed historical period's purchase time. -/
def c10RosterFar : List RosterRow := [⟨"T1", 1, "P1", some "u1", some 5000, 5000⟩]

/-- Transactions where the same buyer acquires the player twice without an
intervening tracked sale, then sells: the close step hits the first (the
oldest) still-open seller period, not the most recent one. -/
def c5Txs : List Transaction := [
  ⟨"TA", "TX", some "uA", some "ux", 1, "P1", 0⟩,
  ⟨"TA", "TY", some "uA", some "uy", 1, "P1", 1 * dayMs⟩,
  ⟨"TB", "TA", some "uB", some "uA", 1, "P1", 3 * dayMs⟩ ]

/-- The current roster after c5Txs: uB holds the player. -/
def c5Roster : List RosterRow := [⟨"TB", 1, "P1", some "uB", some (3 * dayMs), 3 * dayMs⟩]

/-- Two teams of distinct users, for the conservation instances. -/
def c2Teams : List Team := [⟨"T1", "u1", "Alpha"⟩, ⟨"T2", "u2", "Beta"⟩]

/-- A forked transaction history for one player: two buyers acquire the
player from unrelated sellers at days 0 and 1, and each later sells,
producing two closed periods [0, day 3) and [day 1, day 4) that overlap on
days 1 and 2. -/
def c2Txs : List Transaction := [
  ⟨"T1", "TX", some "u1", some "ux", 1, "P1", 0⟩,
  ⟨"T2", "TY", some "u2", some "uy", 1, "P1", 1 * dayMs⟩,
  ⟨"T3", "T1", some "u3", some "u1", 1, "P1", 3 * dayMs⟩,
  ⟨"T4", "T2", some "u4", some "u2", 1, "P1", 4 * dayMs⟩ ]

/-- One game for player 1 on day 2, worth 7 points, inside the overlap of
the two forked periods. -/
def c2Logs : Int → List PlayerGameLog :=
  fun pid => if pid = 1 then [⟨"1970-01-03", 7⟩] else []

/-- A well-formed chain for the conservation witness: u1 buys at day 0 and
sells to u2 at day 3, who still holds the player. -/
def c2wTxs : List Transaction := [
  ⟨"T1", "TX", some "u1", some "ux", 1, "P1", 0⟩,
  ⟨"T2", "T1", some "u2", some "u1", 1, "P1", 3 * dayMs⟩ ]

/-- The current roster matching c2wTxs. -/
def c2wRoster : List RosterRow := [⟨"T2", 1, "P1", some "u2", some (3 * dayMs), 3 * dayMs⟩]

/-! ## Lemmas

General lemmas about the stable sort used throughout the development. -/

theorem insertLe_perm (le : α → α → Bool) (a : α) (l : List α) :
    List.Perm (insertLe le a l) (a :: l) := by
  induction l with
  | nil => exact List.Perm.refl _
  | cons b bs ih =>
    simp only [insertLe]
    split
    · exact List.Perm.refl _
    · exact (ih.cons b).trans (List.Perm.swap a b bs)

theorem jsSort_perm (le : α → α → Bool) (l : List α) : List.Perm (jsSort le l) l := by
  induction l with
  | nil => exact List.Perm.refl _
  | cons a l ih => exact (insertLe_perm le a (jsSort le l)).trans (ih.cons a)

theorem insertLe_pairwise (le : α → α → Bool)
    (total : ∀ a b, le a b = true ∨ le b a = true)
    (trans : ∀ a b c, le a b = true → le b c = true → le a c = true)
    (a : α) (l : List α) (h : List.Pairwise (fun x y => le x y = true) l) :
    List.Pairwise (fun x y => le x y = true) (insertLe le a l) := by
  induction l with
  | nil => simp [insertLe]
  | cons b bs ih =>
    rcases List.pairwise_cons.mp h with ⟨hb, hbs⟩
    cases hle : le a b with
    | true =>
      simp only [insertLe, hle, if_true]
      refine List.pairwise_cons.mpr ⟨?_, h⟩
      intro x hx
      rcases List.mem_cons.mp hx with rfl | hx
      · exact hle
      · exact trans a b x hle (hb x hx)
    | false =>
      simp only [insertLe, hle, Bool.false_eq_true, if_false]
      refine List.pairwise_cons.mpr ⟨?_, ih hbs⟩
      intro x hx
      rcases List.mem_cons.mp (((insertLe_perm le a bs).mem_iff).mp hx) with rfl | hx
      · rcases total x b with h' | h'
        · rw [h'] at hle; exact absurd hle (by simp)
        · exact h'
      · exact hb x hx

theorem jsSort_pairwise (le : α → α → Bool)
    (total : ∀ a b, le a b = true ∨ le b a = true)
    (trans : ∀ a b c, le a b = true → le b c = true → le a c = true)
    (l : List α) :
    List.Pairwise (fun x y => le x y = true) (jsSort le l) := by
  induction l with
  | nil => simp [jsSort]
  | cons a l ih => exact insertLe_pairwise le total trans a (jsSort le l) ih

theorem jsSort_of_pairwise (le : α → α → Bool) (l : List α)
    (h : List.Pairwise (fun x y => le x y = true) l) : jsSort le l = l := by
  induction l with
  | nil => rfl
  | cons a l ih =>
    have htl : jsSort le l = l := ih h.of_cons
    show insertLe le a (jsSort le l) = a :: l
    rw [htl]
    cases l with
    | nil => rfl
    | cons b bs =>
      have hab : le a b = true := (List.pairwise_cons.mp h).1 b (List.mem_cons_self b bs)
      simp [insertLe, hab]

/-! ### Week Calendar lemmas -/

theorem getWeekNumber_eq (d s : Int) : getWeekNumber d s = max 1 ((d - s) / 7 + 1) := by
  unfold getWeekNumber
  rw [Int.fdiv_eq_ediv _ (by decide : (0:Int) ≤ 7)]

/-- When the season start falls on a Monday, the Monday adjustment inside
getWeekDates is the identity and the week-w range is the w-th 7-day block
from the season start. -/
theorem getWeekDates_monday (s w : Int) (h : dayOfWeek s = 1) :
    getWeekDates w s = (s + (w - 1) * 7, s + (w - 1) * 7 + 6) := by
  have h' : (s + 4) % 7 = 1 := h
  have h1 : (s + (w - 1) * 7 + 4) % 7 = 1 := by omega
  simp only [getWeekDates, dayOfWeek]
  have h1' : (s + (w - 1) * 7 + 4).emod 7 = 1 := h1
  rw [h1']
  norm_num

/-! ### Integer sums over lists -/

theorem sum_map_zero (l : List α) : (l.map (fun _ => (0 : Int))).sum = 0 := by
  induction l with
  | nil => rfl
  | cons a l ih => simp [ih]

theorem sum_map_eq_zero (l : List α) (f : α → Int) (h : ∀ x ∈ l, f x = 0) :
    (l.map f).sum = 0 := by
  induction l with
  | nil => rfl
  | cons a l ih =>
    simp only [List.map_cons, List.sum_cons, h a (List.mem_cons_self a l)]
    rw [ih (fun x hx => h x (List.mem_cons_of_mem a hx))]
    rfl

theorem sum_map_add (l : List α) (f g : α → Int) :
    (l.map (fun x => f x + g x)).sum = (l.map f).sum + (l.map g).sum := by
  induction l with
  | nil => rfl
  | cons a l ih =>
    simp only [List.map_cons, List.sum_cons, ih]
    ring

theorem filter_sum_eq (l : List α) (pred : α → Bool) (f : α → Int) :
    ((l.filter pred).map f).sum = (l.map (fun x => if pred x then f x else 0)).sum := by
  induction l with
  | nil => rfl
  | cons a l ih =>
    cases hp : pred a with
    | true => simp [List.filter_cons, hp, ih]
    | false => simp [List.filter_cons, hp, ih]

/-! ### Rankings-map lemmas -/

theorem mapGet_set_self (m : RankMap) (u : String) (r : TeamRanking) :
    mapGet (mapSet m u r) u = some r := by
  induction m with
  | nil => simp [mapSet, mapGet]
  | cons e es ih =>
    by_cases h : e.1 = u
    · simp [mapSet, mapGet, h]
    · simp [mapSet, mapGet, h, ih]

theorem mapGet_set_ne (m : RankMap) (u v : String) (r : TeamRanking) (h : u ≠ v) :
    mapGet (mapSet m u r) v = mapGet m v := by
  induction m with
  | nil => simp [mapSet, mapGet, h]
  | cons e es ih =>
    by_cases he : e.1 = u
    · simp [mapSet, mapGet, he, h]
    · simp [mapSet, mapGet, he, ih]

theorem mapSet_eq_append (m : RankMap) (u : String) (r : TeamRanking)
    (h : mapGet m u = none) : mapSet m u r = m ++ [(u, r)] := by
  induction m with
  | nil => rfl
  | cons e es ih =>
    by_cases he : e.1 = u
    · rw [mapGet, if_pos he] at h
      exact absurd h (by simp)
    · rw [mapGet, if_neg he] at h
      simp [mapSet, he, ih h]

theorem mapGet_some_mem (m : RankMap) (u : String) (r : TeamRanking)
    (h : mapGet m u = some r) : (u, r) ∈ m := by
  induction m with
  | nil => simp [mapGet] at h
  | cons e es ih =>
    by_cases he : e.1 = u
    · rw [mapGet, if_pos he] at h
      rcases e with ⟨a, b⟩
      simp at he h
      simp [he, h]
    · rw [mapGet, if_neg he] at h
      exact List.mem_cons_of_mem e (ih h)

theorem mapGet_append_of_none (m1 m2 : RankMap) (u : String)
    (h : mapGet m1 u = none) : mapGet (m1 ++ m2) u = mapGet m2 u := by
  induction m1 with
  | nil => rfl
  | cons e es ih =>
    by_cases he : e.1 = u
    · rw [mapGet, if_pos he] at h
      exact absurd h (by simp)
    · rw [mapGet, if_neg he] at h
      simp only [List.cons_append, mapGet, if_neg he]
      exact ih h

theorem mapGet_isSome_of_mem_keys (m : RankMap) (u : String)
    (h : u ∈ m.map (fun e => e.1)) : (mapGet m u).isSome := by
  induction m with
  | nil => simp at h
  | cons e es ih =>
    by_cases he : e.1 = u
    · simp [mapGet, he]
    · rw [mapGet, if_neg he]
      rcases List.mem_map.mp h with ⟨x, hx, hxu⟩
      rcases List.mem_cons.mp hx with rfl | hx
      · exact absurd hxu he
      · exact ih (List.mem_map.mpr ⟨x, hx, hxu⟩)

theorem addWeekly_fields (ws : List WeeklyPoints) : ∀ r : TeamRanking,
    (addWeekly r ws).userId = r.userId ∧ (addWeekly r ws).teamId = r.teamId ∧
    (addWeekly r ws).teamName = r.teamName := by
  induction ws with
  | nil => exact fun r => ⟨rfl, rfl, rfl⟩
  | cons w ws ih =>
    intro r
    have := ih { r with
      weeklyBreakdown := bump r.weeklyBreakdown w.weekNumber w.points
      totalPoints := r.totalPoints + w.points }
    simpa [addWeekly, List.foldl_cons] using this

theorem mapSet_rankKeyFields (m : RankMap) (u : String) (r' r : TeamRanking)
    (hget : mapGet m u = some r) (h1 : r'.userId = r.userId)
    (h2 : r'.teamId = r.teamId) (h3 : r'.teamName = r.teamName) :
    (mapSet m u r').map rankKeyFields = m.map rankKeyFields := by
  induction m with
  | nil => simp [mapGet] at hget
  | cons e es ih =>
    by_cases he : e.1 = u
    · rw [mapGet, if_pos he] at hget
      have he2 : e.2 = r := Option.some.inj hget
      simp [mapSet, he, rankKeyFields, he2, h1, h2, h3]
    · rw [mapGet, if_neg he] at hget
      simp [mapSet, he, rankKeyFields, ih hget]

theorem applyPeriod_rankKeyFields (teams : List Team)
    (logs : Int → List PlayerGameLog) (m : RankMap) (p : OwnershipPeriod)
    (h : (mapGet m p.userId).isSome) :
    (applyPeriod teams logs m p).map rankKeyFields = m.map rankKeyFields := by
  rcases Option.isSome_iff_exists.mp h with ⟨r, hr⟩
  unfold applyPeriod
  rw [hr]
  exact mapSet_rankKeyFields m p.userId _ r hr (addWeekly_fields _ r).1
    (addWeekly_fields _ r).2.1 (addWeekly_fields _ r).2.2

theorem applyPeriod_isSome (teams : List Team) (logs : Int → List PlayerGameLog)
    (m : RankMap) (p : OwnershipPeriod) (u : String) (h : (mapGet m u).isSome) :
    (mapGet (applyPeriod teams logs m p) u).isSome := by
  unfold applyPeriod
  cases hg : mapGet m p.userId with
  | some r =>
    by_cases hu : p.userId = u
    · subst hu
      rw [mapGet_set_self]
      rfl
    · rw [mapGet_set_ne _ _ _ _ hu]
      exact h
  | none =>
    cases ht : teams.find? (fun t => t.id == p.teamId) with
    | some t =>
      by_cases hu : p.userId = u
      · subst hu
        rw [mapGet_set_self]
        rfl
      · rw [mapGet_set_ne _ _ _ _ hu]
        exact h
    | none => exact h

theorem applyPeriod_get_ne (teams : List Team) (logs : Int → List PlayerGameLog)
    (m : RankMap) (p : OwnershipPeriod) (u : String) (h : p.userId ≠ u) :
    mapGet (applyPeriod teams logs m p) u = mapGet m u := by
  unfold applyPeriod
  cases mapGet m p.userId with
  | some r => rw [mapGet_set_ne _ _ _ _ h]
  | none =>
    cases teams.find? (fun t => t.id == p.teamId) with
    | some t => rw [mapGet_set_ne _ _ _ _ h]
    | none => rfl

theorem foldPeriods_rankKeyFields (teams : List Team)
    (logs : Int → List PlayerGameLog) (periods : List OwnershipPeriod) :
    ∀ m : RankMap, (∀ p ∈ periods, (mapGet m p.userId).isSome) →
    (periods.foldl (applyPeriod teams logs) m).map rankKeyFields =
      m.map rankKeyFields := by
  induction periods with
  | nil => intro m _; rfl
  | cons p ps ih =>
    intro m h
    rw [List.foldl_cons,
      ih _ (fun q hq => applyPeriod_isSome teams logs m p q.userId
        (h q (List.mem_cons_of_mem p hq)))]
    exact applyPeriod_rankKeyFields teams logs m p (h p (List.mem_cons_self p ps))

theorem foldPeriods_get_ne (teams : List Team) (logs : Int → List PlayerGameLog)
    (periods : List OwnershipPeriod) (u : String) :
    ∀ m : RankMap, (∀ p ∈ periods, p.userId ≠ u) →
    mapGet (periods.foldl (applyPeriod teams logs) m) u = mapGet m u := by
  induction periods with
  | nil => intro m _; rfl
  | cons p ps ih =>
    intro m h
    rw [List.foldl_cons, ih _ (fun q hq => h q (List.mem_cons_of_mem p hq)),
      applyPeriod_get_ne teams logs m p u (h p (List.mem_cons_self p ps))]

theorem initMap_go (teams : List Team) : ∀ m : RankMap,
    (∀ t ∈ teams, mapGet m t.userId = none) →
    (teams.map (fun t => t.userId)).Nodup →
    teams.foldl (fun m t => mapSet m t.userId (initialRanking t)) m =
      m ++ teams.map (fun t => (t.userId, initialRanking t)) := by
  induction teams with
  | nil => intro m _ _; simp
  | cons t ts ih =>
    intro m hnone hnodup
    rw [List.foldl_cons, mapSet_eq_append m _ _ (hnone t (List.mem_cons_self t ts))]
    rw [ih (m ++ [(t.userId, initialRanking t)]) ?_ (by simpa using hnodup.of_cons)]
    · simp
    · intro t' ht'
      rw [mapGet_append_of_none _ _ _ (hnone t' (List.mem_cons_of_mem t ht'))]
      have hne : t.userId ≠ t'.userId := by
        intro hequ
        have : t.userId ∈ ts.map (fun t => t.userId) :=
          List.mem_map.mpr ⟨t', ht', hequ.symm⟩
        exact (List.nodup_cons.mp (by simpa using hnodup)).1 this
      simp [mapGet, hne]

theorem initMap_eq (teams : List Team)
    (husers : (teams.map (fun t => t.userId)).Nodup) :
    teams.foldl (fun m t => mapSet m t.userId (initialRanking t)) [] =
      teams.map (fun t => (t.userId, initialRanking t)) := by
  simpa using initMap_go teams [] (fun t _ => rfl) husers

theorem initMap_get (teams : List Team)
    (husers : (teams.map (fun t => t.userId)).Nodup) (t : Team) (ht : t ∈ teams) :
    mapGet (teams.map (fun t => (t.userId, initialRanking t))) t.userId =
      some (initialRanking t) := by
  induction teams with
  | nil => simp at ht
  | cons t0 ts ih =>
    rcases List.mem_cons.mp ht with rfl | ht'
    · simp [mapGet]
    · have hne : t0.userId ≠ t.userId := by
        intro hequ
        have : t0.userId ∈ ts.map (fun t => t.userId) :=
          List.mem_map.mpr ⟨t, ht', hequ.symm⟩
        exact (List.nodup_cons.mp (by simpa using husers)).1 this
      simp only [List.map_cons, mapGet, if_neg hne]
      exact ih (by simpa using husers.of_cons) ht'

/-! ### Conservation lemmas -/

theorem mapTotal_cons (e : String × TeamRanking) (m : RankMap) :
    mapTotal (e :: m) = e.2.totalPoints + mapTotal m := by
  simp [mapTotal]

theorem not_both_inPeriodDay (g : PlayerGameLog) (p q : OwnershipPeriod)
    (h : dayOverlap p q = false) :
    ¬(inPeriodDay g p = true ∧ inPeriodDay g q = true) := by
  rintro ⟨hp, hq⟩
  unfold inPeriodDay gameInRange at hp hq
  unfold dayOverlap beforeEndDay at h
  cases hps : p.saleDate <;> cases hqs : q.saleDate <;>
    simp [hps, hqs, Bool.and_eq_true, decide_eq_true_eq] at hp hq h <;> omega

theorem sum_ite_inPeriod (g : PlayerGameLog) (ps : List OwnershipPeriod)
    (hdisj : List.Pairwise
      (fun p q => ¬(inPeriodDay g p = true ∧ inPeriodDay g q = true)) ps) :
    (ps.map (fun p => if inPeriodDay g p then g.points else 0)).sum =
      if ps.any (fun p => inPeriodDay g p) then g.points else 0 := by
  induction ps with
  | nil => simp
  | cons p ps ih =>
    rcases List.pairwise_cons.mp hdisj with ⟨hp, hps⟩
    cases hin : inPeriodDay g p with
    | true =>
      have hrest : ∀ q ∈ ps, inPeriodDay g q = false := by
        intro q hq
        cases hq2 : inPeriodDay g q with
        | false => rfl
        | true => exact absurd ⟨hin, hq2⟩ (hp q hq)
      simp only [List.map_cons, List.sum_cons, hin, if_true]
      rw [sum_map_eq_zero ps _ (fun q hq => by rw [hrest q hq]; rfl)]
      simp [List.any_cons, hin]
    | false =>
      simp only [List.map_cons, List.sum_cons, hin, Bool.false_eq_true, if_false,
        zero_add]
      rw [ih hps]
      simp [List.any_cons, hin]

theorem periods_exchange (ps : List OwnershipPeriod) (l : List PlayerGameLog) :
    (ps.map (fun p =>
      ((l.filter (fun g => inPeriodDay g p)).map (fun g => g.points)).sum)).sum =
    (l.map (fun g =>
      (ps.map (fun p => if inPeriodDay g p then g.points else 0)).sum)).sum := by
  induction ps with
  | nil => simp [sum_map_zero]
  | cons p ps ih =>
    simp only [List.map_cons, List.sum_cons]
    rw [filter_sum_eq l _ _, ih, ← sum_map_add]

theorem attributed_eq_union (periods : List OwnershipPeriod)
    (logs : Int → List PlayerGameLog) (pid : Int)
    (hdisj : List.Pairwise
      (fun p q => p.playerId = q.playerId → dayOverlap p q = false) periods) :
    attributedPoints periods logs pid = unionPoints periods logs pid := by
  unfold attributedPoints unionPoints
  have hpid : ∀ p ∈ periods.filter (fun p => p.playerId == pid), p.playerId = pid := by
    intro p hp
    have := (List.mem_filter.mp hp).2
    simpa using this
  have hdisj2 : ∀ g : PlayerGameLog, List.Pairwise
      (fun p q => ¬(inPeriodDay g p = true ∧ inPeriodDay g q = true))
      (periods.filter (fun p => p.playerId == pid)) := by
    intro g
    have h1 := hdisj.filter (fun p => p.playerId == pid)
    refine h1.imp_of_mem ?_
    intro p q hpm hqm himp
    exact not_both_inPeriodDay g p q (himp ((hpid p hpm).trans (hpid q hqm).symm))
  rw [List.map_congr_left (fun p hp => by rw [hpid p hp] :
    ∀ p ∈ periods.filter (fun p => p.playerId == pid),
      periodPoints (logs p.playerId) p = periodPoints (logs pid) p)]
  calc ((periods.filter (fun p => p.playerId == pid)).map
        (fun p => periodPoints (logs pid) p)).sum
      = ((periods.filter (fun p => p.playerId == pid)).map (fun p =>
          (((logs pid).filter (fun g => inPeriodDay g p)).map
            (fun g => g.points)).sum)).sum := rfl
    _ = ((logs pid).map (fun g =>
          ((periods.filter (fun p => p.playerId == pid)).map
            (fun p => if inPeriodDay g p then g.points else 0)).sum)).sum :=
        periods_exchange _ (logs pid)
    _ = ((logs pid).map (fun g =>
          if (periods.filter (fun p => p.playerId == pid)).any
              (fun p => inPeriodDay g p)
          then g.points else 0)).sum := by
        refine congrArg List.sum (List.map_congr_left ?_)
        intro g _
        exact sum_ite_inPeriod g _ (hdisj2 g)
    _ = (((logs pid).filter (fun g =>
          (periods.filter (fun p => p.playerId == pid)).any
            (fun p => inPeriodDay g p))).map (fun g => g.points)).sum :=
        (filter_sum_eq _ _ _).symm

theorem bump_sum (m : List (Int × Int)) (k v : Int) :
    ((bump m k v).map (fun kv => kv.2)).sum = (m.map (fun kv => kv.2)).sum + v := by
  induction m with
  | nil => simp [bump]
  | cons e rest ih =>
    by_cases he : e.1 = k
    · simp [bump, he]
      ring
    · simp [bump, he, ih]
      ring

theorem bumpFold_sum (ss : Int) (gs : List PlayerGameLog) : ∀ m : List (Int × Int),
    ((gs.foldl (fun m g =>
        bump m (getWeekNumber (normalizeDateStr g.date) ss) g.points) m).map
      (fun kv => kv.2)).sum =
    (m.map (fun kv => kv.2)).sum + (gs.map (fun g => g.points)).sum := by
  induction gs with
  | nil => intro m; simp
  | cons g gs ih =>
    intro m
    rw [List.foldl_cons, ih, bump_sum]
    simp only [List.map_cons, List.sum_cons]
    ring

theorem calculateWeeklyPoints_sum (gameLogs : List PlayerGameLog) (pd : Int)
    (sd : Option Int) (ss : Int) :
    ((calculateWeeklyPoints gameLogs pd sd ss).map (fun w => w.points)).sum =
      ((filteredGames gameLogs (normMs pd) (sd.map normMs)).map
        (fun g => g.points)).sum := by
  unfold calculateWeeklyPoints
  rw [List.Perm.sum_eq (List.Perm.map _ (jsSort_perm _ _)), List.map_map]
  show (((filteredGames gameLogs (normMs pd) (sd.map normMs)).foldl
      (fun m g => bump m (getWeekNumber (normalizeDateStr g.date) ss) g.points)
      []).map (fun kv => kv.2)).sum = _
  rw [bumpFold_sum ss _ []]
  simp

theorem addWeekly_total (ws : List WeeklyPoints) : ∀ r : TeamRanking,
    (addWeekly r ws).totalPoints = r.totalPoints + (ws.map (fun w => w.points)).sum := by
  induction ws with
  | nil => intro r; simp [addWeekly]
  | cons w ws ih =>
    intro r
    calc (addWeekly r (w :: ws)).totalPoints
        = (addWeekly { r with
            weeklyBreakdown := bump r.weeklyBreakdown w.weekNumber w.points
            totalPoints := r.totalPoints + w.points } ws).totalPoints := rfl
      _ = (r.totalPoints + w.points) + (ws.map (fun w => w.points)).sum := by
          rw [ih]
      _ = r.totalPoints + ((w :: ws).map (fun w => w.points)).sum := by
          simp only [List.map_cons, List.sum_cons]
          ring

theorem mapSet_total (m : RankMap) (u : String) (r' r : TeamRanking)
    (hget : mapGet m u = some r) :
    mapTotal (mapSet m u r') = mapTotal m - r.totalPoints + r'.totalPoints := by
  induction m with
  | nil => simp [mapGet] at hget
  | cons e es ih =>
    by_cases he : e.1 = u
    · rw [mapGet, if_pos he] at hget
      have he2 : e.2 = r := Option.some.inj hget
      simp only [mapSet, if_pos he, mapTotal_cons, he2]
      ring
    · rw [mapGet, if_neg he] at hget
      simp only [mapSet, if_neg he, mapTotal_cons, ih hget]
      ring

theorem applyPeriod_total (teams : List Team) (logs : Int → List PlayerGameLog)
    (m : RankMap) (p : OwnershipPeriod) (h : (mapGet m p.userId).isSome) :
    mapTotal (applyPeriod teams logs m p) =
      mapTotal m + periodPoints (logs p.playerId) p := by
  rcases Option.isSome_iff_exists.mp h with ⟨r, hr⟩
  unfold applyPeriod
  rw [hr, mapSet_total m p.userId _ r hr, addWeekly_total, calculateWeeklyPoints_sum]
  have hpp : ((filteredGames (logs p.playerId) (normMs p.purchaseDate)
      (p.saleDate.map normMs)).map (fun g => g.points)).sum =
      periodPoints (logs p.playerId) p := rfl
  rw [hpp]
  ring

theorem foldPeriods_total (teams : List Team) (logs : Int → List PlayerGameLog)
    (periods : List OwnershipPeriod) :
    ∀ m : RankMap, (∀ p ∈ periods, (mapGet m p.userId).isSome) →
    mapTotal (periods.foldl (applyPeriod teams logs) m) =
      mapTotal m + (periods.map (fun p => periodPoints (logs p.playerId) p)).sum := by
  induction periods with
  | nil => intro m _; simp
  | cons p ps ih =>
    intro m h
    rw [List.foldl_cons,
      ih _ (fun q hq => applyPeriod_isSome teams logs m p q.userId
        (h q (List.mem_cons_of_mem p hq))),
      applyPeriod_total teams logs m p (h p (List.mem_cons_self p ps))]
    simp only [List.map_cons, List.sum_cons]
    ring

theorem mem_mapSet (m : RankMap) (u : String) (r : TeamRanking)
    (e : String × TeamRanking) (h : e ∈ mapSet m u r) : e = (u, r) ∨ e ∈ m := by
  induction m with
  | nil => simp [mapSet] at h; simp [h]
  | cons e0 es ih =>
    by_cases he : e0.1 = u
    · rw [mapSet, if_pos he] at h
      rcases List.mem_cons.mp h with rfl | hmem
      · exact Or.inl rfl
      · exact Or.inr (List.mem_cons_of_mem e0 hmem)
    · rw [mapSet, if_neg he] at h
      rcases List.mem_cons.mp h with rfl | hmem
      · exact Or.inr (List.mem_cons_self _ es)
      · rcases ih hmem with h1 | h1
        · exact Or.inl h1
        · exact Or.inr (List.mem_cons_of_mem e0 h1)

theorem foldSet_total_zero (teams : List Team) : ∀ m : RankMap,
    (∀ e ∈ m, e.2.totalPoints = 0) →
    ∀ e ∈ teams.foldl (fun m t => mapSet m t.userId (initialRanking t)) m,
      e.2.totalPoints = 0 := by
  induction teams with
  | nil => intro m h; exact h
  | cons t ts ih =>
    intro m h
    rw [List.foldl_cons]
    refine ih _ ?_
    intro e he
    rcases mem_mapSet m t.userId (initialRanking t) e he with rfl | hmem
    · rfl
    · exact h e hmem

theorem foldSet_isSome (teams : List Team) : ∀ (m : RankMap) (u : String),
    (u ∈ teams.map (fun t => t.userId) ∨ (mapGet m u).isSome) →
    (mapGet (teams.foldl (fun m t => mapSet m t.userId (initialRanking t)) m)
      u).isSome := by
  induction teams with
  | nil =>
    intro m u h
    rcases h with h | h
    · simp at h
    · exact h
  | cons t ts ih =>
    intro m u h
    rw [List.foldl_cons]
    apply ih
    rcases h with hmem | hsome
    · rw [List.map_cons] at hmem
      rcases List.mem_cons.mp hmem with heq | hmem'
      · right
        subst heq
        rw [mapGet_set_self]
        rfl
      · exact Or.inl hmem'
    · right
      by_cases he : t.userId = u
      · subst he
        rw [mapGet_set_self]
        rfl
      · rw [mapGet_set_ne _ _ _ _ he]
        exact hsome

theorem calculateRankings_eq (teams : List Team) (txs : List Transaction)
    (roster : List RosterRow) (logs : Int → List PlayerGameLog)
    (nameCmp : String → String → Int) (hne : teams ≠ []) :
    calculateRankings teams txs roster logs nameCmp =
      jsSort (rankLe nameCmp)
        (jsSort (rankLe nameCmp)
            (((getPlayerOwnershipPeriods txs roster).foldl (applyPeriod teams logs)
                (teams.foldl (fun m t => mapSet m t.userId (initialRanking t)) [])).map
              (fun e => e.2)) ++
          (teams.filter (fun t =>
            !((jsSort (rankLe nameCmp)
                (((getPlayerOwnershipPeriods txs roster).foldl (applyPeriod teams logs)
                    (teams.foldl (fun m t => mapSet m t.userId (initialRanking t)) [])).map
                  (fun e => e.2))).map (fun r => r.userId)).contains t.userId)).map
            initialRanking) := by
  have hc : ¬ (teams.isEmpty = true) := by
    simpa [List.isEmpty_iff] using hne
  unfold calculateRankings
  rw [if_neg hc]

/-! ### History-map lemmas -/

theorem histGet_set_self (m : Hist) (pid : Int) (h : List WorkPeriod) :
    histGet (histSet m pid h) pid = h := by
  induction m with
  | nil => simp [histSet, histGet]
  | cons e es ih =>
    by_cases he : e.1 = pid
    · simp [histSet, histGet, he]
    · simp [histSet, histGet, he, ih]

theorem histGet_set_ne (m : Hist) (pid pid' : Int) (h : List WorkPeriod)
    (hne : pid ≠ pid') : histGet (histSet m pid h) pid' = histGet m pid' := by
  induction m with
  | nil => simp [histSet, histGet, hne]
  | cons e es ih =>
    by_cases he : e.1 = pid
    · simp [histSet, histGet, he, hne]
    · simp [histSet, histGet, he, ih]

theorem mem_keys_histSet (m : Hist) (pid : Int) (h : List WorkPeriod) (x : Int)
    (hx : x ∈ (histSet m pid h).map Prod.fst) :
    x = pid ∨ x ∈ m.map Prod.fst := by
  induction m with
  | nil => simp [histSet] at hx; simp [hx]
  | cons e es ih =>
    by_cases he : e.1 = pid
    · rw [histSet, if_pos he] at hx
      rw [List.map_cons] at hx
      rcases List.mem_cons.mp hx with h1 | h1
      · exact Or.inl h1
      · exact Or.inr (by rw [List.map_cons]; exact List.mem_cons_of_mem _ h1)
    · rw [histSet, if_neg he] at hx
      rw [List.map_cons] at hx
      rcases List.mem_cons.mp hx with h1 | h1
      · exact Or.inr (by rw [List.map_cons, h1]; exact List.mem_cons_self _ _)
      · rcases ih h1 with h2 | h2
        · exact Or.inl h2
        · exact Or.inr (by rw [List.map_cons]; exact List.mem_cons_of_mem _ h2)

theorem histSet_keys_nodup (m : Hist) (pid : Int) (h : List WorkPeriod)
    (hnd : (m.map Prod.fst).Nodup) : ((histSet m pid h).map Prod.fst).Nodup := by
  induction m with
  | nil => simp [histSet]
  | cons e es ih =>
    rw [List.map_cons] at hnd
    rcases List.nodup_cons.mp hnd with ⟨hni, hnd'⟩
    by_cases he : e.1 = pid
    · rw [histSet, if_pos he]
      refine List.nodup_cons.mpr ⟨?_, hnd'⟩
      rw [← he]
      exact hni
    · rw [histSet, if_neg he]
      simp only [List.map_cons]
      refine List.nodup_cons.mpr ⟨?_, ih hnd'⟩
      intro hmem
      rcases mem_keys_histSet es pid h e.1 hmem with h1 | h1
      · exact he h1
      · exact hni h1

theorem processTx_keys_nodup (m : Hist) (t : Transaction)
    (hnd : (m.map Prod.fst).Nodup) : ((processTx m t).map Prod.fst).Nodup := by
  unfold processTx
  split
  · exact hnd
  · exact histSet_keys_nodup m t.playerId _ hnd

theorem processTransactions_keys_nodup (txs : List Transaction) :
    ((processTransactions txs).map Prod.fst).Nodup := by
  unfold processTransactions
  have hgen : ∀ (l : List Transaction) (m : Hist), (m.map Prod.fst).Nodup →
      ((l.foldl processTx m).map Prod.fst).Nodup := by
    intro l
    induction l with
    | nil => intro m h; exact h
    | cons t ts ih =>
      intro m h
      exact ih (processTx m t) (processTx_keys_nodup m t h)
  exact hgen txs [] (by simp)

theorem processTransactions_keys_sub (txs : List Transaction) :
    ∀ x ∈ (processTransactions txs).map Prod.fst, ∃ t ∈ txs, t.playerId = x := by
  unfold processTransactions
  have hgen : ∀ (l : List Transaction) (m : Hist) (x : Int),
      x ∈ (l.foldl processTx m).map Prod.fst →
      x ∈ m.map Prod.fst ∨ ∃ t ∈ l, t.playerId = x := by
    intro l
    induction l with
    | nil => intro m x hx; exact Or.inl hx
    | cons t ts ih =>
      intro m x hx
      rcases ih (processTx m t) x hx with h1 | h1
      · have h2 : x ∈ m.map Prod.fst ∨ x = t.playerId := by
          unfold processTx at h1
          revert h1
          split
          · exact fun h1 => Or.inl h1
          · intro h1
            rcases mem_keys_histSet m t.playerId _ x h1 with h2 | h2
            · exact Or.inr h2
            · exact Or.inl h2
        rcases h2 with h2 | h2
        · exact Or.inl h2
        · exact Or.inr ⟨t, List.mem_cons_self t ts, h2.symm⟩
      · rcases h1 with ⟨t', ht', hpt'⟩
        exact Or.inr ⟨t', List.mem_cons_of_mem t ht', hpt'⟩
  intro x hx
  rcases hgen txs [] x hx with h1 | h1
  · simp at h1
  · exact h1

theorem histGet_of_mem_nodup (m : Hist) (hnd : (m.map Prod.fst).Nodup)
    (e : Int × List WorkPeriod) (he : e ∈ m) : histGet m e.1 = e.2 := by
  induction m with
  | nil => simp at he
  | cons e0 es ih =>
    rw [List.map_cons] at hnd
    rcases List.nodup_cons.mp hnd with ⟨hni, hnd'⟩
    rcases List.mem_cons.mp he with rfl | hmem
    · simp [histGet]
    · have hne : e0.1 ≠ e.1 := by
        intro hequ
        exact hni (by rw [hequ]; exact List.mem_map.mpr ⟨e, hmem, rfl⟩)
      rw [histGet, if_neg hne]
      exact ih hnd' hmem

theorem histGet_foldl_processTx (txs : List Transaction) (pid : Int) :
    ∀ m : Hist, histGet (txs.foldl processTx m) pid =
      (txsFor txs pid).foldl procP (histGet m pid) := by
  induction txs with
  | nil => intro m; rfl
  | cons t ts ih =>
    intro m
    rw [List.foldl_cons, ih]
    cases hor : (isFalsyStr t.buyerUserId || isFalsyStr t.sellerUserId) with
    | false =>
      have hlive : txLive t = true := by
        unfold txLive
        rw [hor]
        rfl
      by_cases hpid : t.playerId = pid
      · have htf : txsFor (t :: ts) pid = t :: txsFor ts pid := by
          unfold txsFor
          rw [List.filter_cons]
          simp [hpid, hlive]
        rw [htf, List.foldl_cons]
        have hpt : histGet (processTx m t) pid = procP (histGet m pid) t := by
          unfold processTx
          rw [hor]
          simp only [Bool.false_eq_true, if_false]
          rw [← hpid, histGet_set_self]
          rfl
        rw [hpt]
      · have htf : txsFor (t :: ts) pid = txsFor ts pid := by
          unfold txsFor
          rw [List.filter_cons]
          simp [hpid]
        have hpt : histGet (processTx m t) pid = histGet m pid := by
          unfold processTx
          rw [hor]
          simp only [Bool.false_eq_true, if_false]
          exact histGet_set_ne m t.playerId pid _ hpid
        rw [htf, hpt]
    | true =>
      have hlive : txLive t = false := by
        unfold txLive
        rw [hor]
        rfl
      have htf : txsFor (t :: ts) pid = txsFor ts pid := by
        unfold txsFor
        rw [List.filter_cons]
        simp [hlive]
      have hpt : processTx m t = m := by
        unfold processTx
        rw [hor]
        rfl
      rw [htf, hpt]

/-! ### Chain-of-custody lemmas -/

theorem closeFirstOpen_append_closed (u tm : String) (t : Int)
    (pre rest : List WorkPeriod) (hpre : ∀ p ∈ pre, p.saleDate ≠ none) :
    closeFirstOpen u tm t (pre ++ rest) = pre ++ closeFirstOpen u tm t rest := by
  induction pre with
  | nil => rfl
  | cons p ps ih =>
    have hp : ¬(p.userId = u ∧ p.teamId = tm ∧ p.saleDate = none) := by
      rintro ⟨_, _, hs⟩
      exact hpre p (List.mem_cons_self p ps) hs
    simp only [List.cons_append]
    rw [closeFirstOpen, if_neg hp, ih (fun q hq => hpre q (List.mem_cons_of_mem p hq))]

theorem chainEnd_ge : ∀ (ts : List Transaction) (u tm : String) (pd : Int),
    chainedFrom u tm pd ts = true → pd ≤ chainEnd pd ts := by
  intro ts
  induction ts with
  | nil => intro u tm pd _; exact le_refl pd
  | cons t rest ih =>
    intro u tm pd h
    simp only [chainedFrom, Bool.and_eq_true, beq_iff_eq, decide_eq_true_eq] at h
    obtain ⟨⟨⟨⟨_, _⟩, _⟩, hle⟩, hch⟩ := h
    exact le_trans hle (ih (buyerUser t) t.buyerTeamId t.createdAt hch)

theorem foldl_procP_chain : ∀ (ts : List Transaction) (closed : List WorkPeriod)
    (u tm : String) (pd : Int), (∀ p ∈ closed, p.saleDate ≠ none) →
    chainedFrom u tm pd ts = true →
    ts.foldl procP (closed ++ [⟨u, tm, pd, none⟩]) = closed ++ chainFrom u tm pd ts := by
  intro ts
  induction ts with
  | nil => intro closed u tm pd _ _; rfl
  | cons t rest ih =>
    intro closed u tm pd hc hch
    simp only [chainedFrom, Bool.and_eq_true, beq_iff_eq, decide_eq_true_eq] at hch
    obtain ⟨⟨⟨⟨hlive, hsu⟩, hstm⟩, hle⟩, hch'⟩ := hch
    rw [List.foldl_cons]
    have hstep : procP (closed ++ [⟨u, tm, pd, none⟩]) t =
        (closed ++ [⟨u, tm, pd, some t.createdAt⟩]) ++
          [⟨buyerUser t, t.buyerTeamId, t.createdAt, none⟩] := by
      unfold procP
      rw [closeFirstOpen_append_closed _ _ _ closed _ hc]
      have hgd : t.sellerUserId.getD "" = u := by rw [hsu]; rfl
      rw [hgd, hstm, closeFirstOpen, if_pos ⟨rfl, rfl, rfl⟩]
    have hc2 : ∀ p ∈ closed ++ [(⟨u, tm, pd, some t.createdAt⟩ : WorkPeriod)],
        p.saleDate ≠ none := by
      intro p hp
      rcases List.mem_append.mp hp with h1 | h1
      · exact hc p h1
      · rw [List.mem_singleton.mp h1]
        simp
    have ihh := ih (closed ++ [(⟨u, tm, pd, some t.createdAt⟩ : WorkPeriod)])
      (buyerUser t) t.buyerTeamId t.createdAt hc2 hch'
    rw [hstep, ihh, chainFrom]
    simp

theorem chainFrom_purchase_bounds : ∀ (ts : List Transaction) (u tm : String)
    (pd : Int), chainedFrom u tm pd ts = true →
    ∀ w ∈ chainFrom u tm pd ts, pd ≤ w.purchaseDate ∧ w.purchaseDate ≤ chainEnd pd ts := by
  intro ts
  induction ts with
  | nil =>
    intro u tm pd _ w hw
    rw [chainFrom] at hw
    rw [List.mem_singleton.mp hw]
    exact ⟨le_refl pd, le_refl pd⟩
  | cons t rest ih =>
    intro u tm pd h w hw
    simp only [chainedFrom, Bool.and_eq_true, beq_iff_eq, decide_eq_true_eq] at h
    obtain ⟨⟨⟨⟨_, _⟩, _⟩, hle⟩, hch⟩ := h
    rw [chainFrom] at hw
    rcases List.mem_cons.mp hw with rfl | hw'
    · exact ⟨le_refl pd,
        le_trans hle (chainEnd_ge rest (buyerUser t) t.buyerTeamId t.createdAt hch)⟩
    · have hb := ih (buyerUser t) t.buyerTeamId t.createdAt hch w hw'
      exact ⟨le_trans hle hb.1, hb.2⟩

theorem chainFrom_sale_le_end : ∀ (ts : List Transaction) (u tm : String)
    (pd : Int), chainedFrom u tm pd ts = true →
    ∀ w ∈ chainFrom u tm pd ts, ∀ s, w.saleDate = some s → s ≤ chainEnd pd ts := by
  intro ts
  induction ts with
  | nil =>
    intro u tm pd _ w hw s hs
    rw [chainFrom] at hw
    rw [List.mem_singleton.mp hw] at hs
    exact absurd hs (by simp)
  | cons t rest ih =>
    intro u tm pd h w hw s hs
    simp only [chainedFrom, Bool.and_eq_true, beq_iff_eq, decide_eq_true_eq] at h
    obtain ⟨⟨⟨⟨_, _⟩, _⟩, hle⟩, hch⟩ := h
    rw [chainFrom] at hw
    rcases List.mem_cons.mp hw with rfl | hw'
    · have : s = t.createdAt := by
        have := hs
        simp at this
        exact this.symm
      rw [this]
      exact chainEnd_ge rest (buyerUser t) t.buyerTeamId t.createdAt hch
    · exact ih (buyerUser t) t.buyerTeamId t.createdAt hch w hw' s hs

theorem chainFrom_pairwise : ∀ (ts : List Transaction) (u tm : String) (pd : Int),
    chainedFrom u tm pd ts = true →
    List.Pairwise (fun w w' => overlapW w w' = false) (chainFrom u tm pd ts) := by
  intro ts
  induction ts with
  | nil => intro u tm pd _; rw [chainFrom]; simp
  | cons t rest ih =>
    intro u tm pd h
    simp only [chainedFrom, Bool.and_eq_true, beq_iff_eq, decide_eq_true_eq] at h
    obtain ⟨⟨⟨⟨_, _⟩, _⟩, hle⟩, hch⟩ := h
    rw [chainFrom]
    refine List.pairwise_cons.mpr ⟨?_, ih (buyerUser t) t.buyerTeamId t.createdAt hch⟩
    intro w' hw'
    have hpu : t.createdAt ≤ w'.purchaseDate :=
      (chainFrom_purchase_bounds rest (buyerUser t) t.buyerTeamId t.createdAt hch w' hw').1
    unfold overlapW beforeEnd
    simp only
    rw [decide_eq_false (by omega : ¬ w'.purchaseDate < t.createdAt)]
    exact Bool.and_false _

theorem chainFrom_find_open : ∀ (ts : List Transaction) (u tm : String) (pd : Int),
    (chainFrom u tm pd ts).find? (fun p =>
        p.userId == (lastHolder u tm ts).1 && p.teamId == (lastHolder u tm ts).2 &&
        p.saleDate == none) =
      some ⟨(lastHolder u tm ts).1, (lastHolder u tm ts).2, chainEnd pd ts, none⟩ := by
  intro ts
  induction ts with
  | nil =>
    intro u tm pd
    rw [chainFrom, lastHolder]
    rw [List.find?_cons_of_pos _ (by simp)]
    rfl
  | cons t rest ih =>
    intro u tm pd
    rw [chainFrom, lastHolder]
    rw [List.find?_cons_of_neg _ (by simp)]
    exact ih (buyerUser t) t.buyerTeamId t.createdAt

theorem emitClosed_spec : ∀ (h : List WorkPeriod) (acc : List OwnershipPeriod)
    (pid : Int) (name : String),
    ∃ l, emitClosed acc pid name h = acc ++ l ∧
      l.Sublist (h.map (toOwn pid name)) ∧
      ∀ p ∈ l, ∃ w ∈ h, p = toOwn pid name w ∧ w.saleDate ≠ none := by
  intro h
  induction h with
  | nil =>
    intro acc pid name
    exact ⟨[], by simp [emitClosed], by simp, by simp⟩
  | cons w h' ih =>
    intro acc pid name
    cases hws : w.saleDate with
    | none =>
      rcases ih acc pid name with ⟨l, h1, h2, h3⟩
      refine ⟨l, ?_, List.Sublist.cons _ h2, ?_⟩
      · show h'.foldl (emitStep pid name) (emitStep pid name acc w) = acc ++ l
        rw [show emitStep pid name acc w = acc from by unfold emitStep; rw [hws]]
        exact h1
      · intro p hp
        rcases h3 p hp with ⟨w', hw', hpw', hws'⟩
        exact ⟨w', List.mem_cons_of_mem w hw', hpw', hws'⟩
    | some s =>
      by_cases hdup : alreadyAdded acc pid w = true
      · rcases ih acc pid name with ⟨l, h1, h2, h3⟩
        refine ⟨l, ?_, List.Sublist.cons _ h2, ?_⟩
        · show h'.foldl (emitStep pid name) (emitStep pid name acc w) = acc ++ l
          rw [show emitStep pid name acc w = acc from by
            unfold emitStep
            rw [hws]
            simp [hdup]]
          exact h1
        · intro p hp
          rcases h3 p hp with ⟨w', hw', hpw', hws'⟩
          exact ⟨w', List.mem_cons_of_mem w hw', hpw', hws'⟩
      · rcases ih (acc ++ [toOwn pid name w]) pid name with ⟨l, h1, h2, h3⟩
        refine ⟨toOwn pid name w :: l, ?_, ?_, ?_⟩
        · show h'.foldl (emitStep pid name) (emitStep pid name acc w) =
            acc ++ (toOwn pid name w :: l)
          rw [show emitStep pid name acc w = acc ++ [toOwn pid name w] from by
            unfold emitStep toOwn
            rw [hws]
            simp [hdup]]
          show emitClosed (acc ++ [toOwn pid name w]) pid name h' =
            acc ++ (toOwn pid name w :: l)
          rw [h1]
          simp
        · exact List.Sublist.cons₂ _ h2
        · intro p hp
          rcases List.mem_cons.mp hp with rfl | hp'
          · refine ⟨w, List.mem_cons_self w h', rfl, ?_⟩
            rw [hws]
            simp
          · rcases h3 p hp' with ⟨w', hw', hpw', hws'⟩
            exact ⟨w', List.mem_cons_of_mem w hw', hpw', hws'⟩

/-! ### Roster-step lemmas -/

theorem rosterEmit_eq (m : Hist) (acc : List OwnershipPeriod) (r : RosterRow) :
    rosterEmit m acc r = acc ++ (rosterPeriod m r).toList := by
  by_cases hfal : isFalsyStr r.userId = true
  · unfold rosterEmit rosterPeriod
    rw [if_pos hfal, if_pos hfal]
    simp
  · have hfal' : isFalsyStr r.userId = false := by simpa using hfal
    cases hfind : (histGet m r.playerId).find?
        (fun q => q.userId == r.userId.getD "" && q.teamId == r.teamId &&
          q.saleDate == none) with
    | some q =>
      unfold rosterEmit rosterPeriod
      rw [hfal']
      simp only [Bool.false_eq_true, if_false, hfind]
      simp
    | none =>
      unfold rosterEmit rosterPeriod
      rw [hfal']
      simp only [Bool.false_eq_true, if_false, hfind]
      simp

theorem rosterStep_eq_filterMap (m : Hist) (roster : List RosterRow) :
    rosterStep m roster = roster.filterMap (rosterPeriod m) := by
  unfold rosterStep
  have hgen : ∀ (l : List RosterRow) (acc : List OwnershipPeriod),
      l.foldl (rosterEmit m) acc = acc ++ l.filterMap (rosterPeriod m) := by
    intro l
    induction l with
    | nil => intro acc; simp
    | cons r rows ih =>
      intro acc
      rw [List.foldl_cons, ih, rosterEmit_eq, List.filterMap_cons]
      cases rosterPeriod m r with
      | none => simp
      | some p => simp
  simpa using hgen roster []

theorem rosterPeriod_some (m : Hist) (r : RosterRow) (p : OwnershipPeriod)
    (h : rosterPeriod m r = some p) :
    p.playerId = r.playerId ∧ p.saleDate = none ∧ isFalsyStr r.userId = false := by
  unfold rosterPeriod at h
  by_cases hfal : isFalsyStr r.userId = true
  · rw [if_pos hfal] at h
    exact absurd h (by simp)
  · have hfal' : isFalsyStr r.userId = false := by simpa using hfal
    rw [hfal'] at h
    simp only [Bool.false_eq_true, if_false] at h
    cases hfind : (histGet m r.playerId).find?
        (fun q => q.userId == r.userId.getD "" && q.teamId == r.teamId &&
          q.saleDate == none) with
    | some q =>
      simp only [hfind, Option.some.injEq] at h
      rw [← h]
      exact ⟨rfl, rfl, hfal'⟩
    | none =>
      simp only [hfind, Option.some.injEq] at h
      rw [← h]
      exact ⟨rfl, rfl, hfal'⟩

theorem pairwise_filterMap_of_pairwise {α β : Type} {R : α → α → Prop}
    {S : β → β → Prop} (f : α → Option β)
    (hf : ∀ a a', R a a' → ∀ b, f a = some b → ∀ b', f a' = some b' → S b b') :
    ∀ l : List α, List.Pairwise R l → List.Pairwise S (l.filterMap f) := by
  intro l
  induction l with
  | nil => intro _; simp
  | cons a l ih =>
    intro h
    rcases List.pairwise_cons.mp h with ⟨ha, h'⟩
    rw [List.filterMap_cons]
    cases hfa : f a with
    | none => exact ih h'
    | some b =>
      refine List.pairwise_cons.mpr ⟨?_, ih h'⟩
      intro b' hb'
      rcases List.mem_filterMap.mp hb' with ⟨a', ha', hfa'⟩
      exact hf a a' (ha a' ha') b hfa b' hfa'

/-! ### Assembling the per-player chain shape of the working history -/

theorem histGet_processTransactions (txs : List Transaction) (pid : Int) :
    histGet (processTransactions txs) pid = (txsFor txs pid).foldl procP [] := by
  unfold processTransactions
  rw [histGet_foldl_processTx]
  rfl

theorem memHist_eq_chain (txs : List Transaction) (h1 : wellFormedTxs txs = true)
    (e : Int × List WorkPeriod) (he : e ∈ processTransactions txs) :
    e.2 = [] ∨ ∃ t rest, txsFor txs e.1 = t :: rest ∧
      chainedFrom (buyerUser t) t.buyerTeamId t.createdAt rest = true ∧
      e.2 = chainFrom (buyerUser t) t.buyerTeamId t.createdAt rest := by
  have hget : histGet (processTransactions txs) e.1 = e.2 :=
    histGet_of_mem_nodup _ (processTransactions_keys_nodup txs) e he
  have he2 : e.2 = (txsFor txs e.1).foldl procP [] := by
    rw [← hget, histGet_processTransactions]
  cases htf : txsFor txs e.1 with
  | nil =>
    left
    rw [he2, htf]
    rfl
  | cons t rest =>
    right
    have hwf : wellFormedPlayer txs e.1 = true := by
      rcases processTransactions_keys_sub txs e.1 (List.mem_map.mpr ⟨e, he, rfl⟩)
        with ⟨t', ht', hpt'⟩
      have hall : wellFormedPlayer txs t'.playerId = true :=
        List.all_eq_true.mp h1 t' ht'
      rw [hpt'] at hall
      exact hall
    have hch : chainedFrom (buyerUser t) t.buyerTeamId t.createdAt rest = true := by
      unfold wellFormedPlayer at hwf
      rw [htf] at hwf
      exact hwf
    refine ⟨t, rest, rfl, hch, ?_⟩
    rw [he2, htf, List.foldl_cons]
    rw [show procP [] t = [⟨buyerUser t, t.buyerTeamId, t.createdAt, none⟩] from rfl]
    have hfc := foldl_procP_chain rest [] (buyerUser t) t.buyerTeamId t.createdAt
      (by intro q hq; simp at hq) hch
    simpa using hfc

theorem rosterPeriod_chain (m : Hist) (r : RosterRow) (t : Transaction)
    (rest : List Transaction)
    (hfal : isFalsyStr r.userId = false)
    (hu : r.userId = some (lastHolder (buyerUser t) t.buyerTeamId rest).1)
    (htm : r.teamId = (lastHolder (buyerUser t) t.buyerTeamId rest).2)
    (hhist : histGet m r.playerId =
      chainFrom (buyerUser t) t.buyerTeamId t.createdAt rest) :
    rosterPeriod m r = some ⟨(lastHolder (buyerUser t) t.buyerTeamId rest).1,
      (lastHolder (buyerUser t) t.buyerTeamId rest).2, r.playerId, r.playerName,
      chainEnd t.createdAt rest, none⟩ := by
  unfold rosterPeriod
  rw [hfal]
  simp only [Bool.false_eq_true, if_false]
  show (match (histGet m r.playerId).find?
      (fun p => p.userId == r.userId.getD "" && p.teamId == r.teamId &&
        p.saleDate == none) with
    | some p => some (⟨r.userId.getD "", r.teamId, r.playerId, r.playerName,
        p.purchaseDate, none⟩ : OwnershipPeriod)
    | none => some (⟨r.userId.getD "", r.teamId, r.playerId, r.playerName,
        purchaseOf r, none⟩ : OwnershipPeriod)) =
    some ⟨(lastHolder (buyerUser t) t.buyerTeamId rest).1,
      (lastHolder (buyerUser t) t.buyerTeamId rest).2, r.playerId, r.playerName,
      chainEnd t.createdAt rest, none⟩
  have hgd : r.userId.getD "" = (lastHolder (buyerUser t) t.buyerTeamId rest).1 := by
    rw [hu]
    rfl
  rw [hgd, htm, hhist, chainFrom_find_open]

theorem rosterMatchesChain_spec (txs : List Transaction) (roster : List RosterRow)
    (h3 : rosterMatchesChain txs roster = true) (r : RosterRow) (hr : r ∈ roster)
    (hfal : isFalsyStr r.userId = false) (t : Transaction) (rest : List Transaction)
    (htf : txsFor txs r.playerId = t :: rest) :
    r.userId = some (lastHolder (buyerUser t) t.buyerTeamId rest).1 ∧
    r.teamId = (lastHolder (buyerUser t) t.buyerTeamId rest).2 := by
  unfold rosterMatchesChain at h3
  have hra := List.all_eq_true.mp h3 r hr
  simp only [hfal, Bool.false_or] at hra
  rw [htf] at hra
  have hra' : ((r.userId == some (lastHolder (buyerUser t) t.buyerTeamId rest).1) &&
      (r.teamId == (lastHolder (buyerUser t) t.buyerTeamId rest).2)) = true := hra
  simp only [Bool.and_eq_true, beq_iff_eq] at hra'
  exact hra'

/-! ### The emission fold preserves pairwise disjointness -/

theorem emitFold_pairwise (roster : List RosterRow) (txs : List Transaction) :
    ∀ (ms : List (Int × List WorkPeriod)) (acc : List OwnershipPeriod),
    List.Pairwise (fun p q => p.playerId = q.playerId → overlapB p q = false) acc →
    (ms.map Prod.fst).Nodup →
    (∀ e ∈ ms, List.Pairwise (fun w w' => overlapW w w' = false) e.2) →
    (∀ e ∈ ms, ∀ p ∈ acc, p.playerId = e.1 →
      p.saleDate = none ∧ ∀ w ∈ e.2, ∀ s, w.saleDate = some s → s ≤ p.purchaseDate) →
    List.Pairwise (fun p q => p.playerId = q.playerId → overlapB p q = false)
      (ms.foldl (fun acc e => emitClosed acc e.1 (playerNameFor roster txs e.1) e.2)
        acc) := by
  intro ms
  induction ms with
  | nil =>
    intro acc hacc _ _ _
    exact hacc
  | cons e ms' ih =>
    intro acc hacc hnd hshape hopen
    rw [List.foldl_cons]
    rcases emitClosed_spec e.2 acc e.1 (playerNameFor roster txs e.1) with ⟨l, h1, h2, h3⟩
    rw [List.map_cons] at hnd
    rcases List.nodup_cons.mp hnd with ⟨hni, hnd'⟩
    have hmain : List.Pairwise (fun p q => p.playerId = q.playerId → overlapB p q = false)
        (ms'.foldl (fun acc e => emitClosed acc e.1 (playerNameFor roster txs e.1) e.2)
          (acc ++ l)) := by
      apply ih
      · rw [List.pairwise_append]
        refine ⟨hacc, ?_, ?_⟩
        · have hmap : List.Pairwise
              (fun p q => p.playerId = q.playerId → overlapB p q = false)
              (e.2.map (toOwn e.1 (playerNameFor roster txs e.1))) := by
            rw [List.pairwise_map]
            refine List.Pairwise.imp ?_ (hshape e (List.mem_cons_self e ms'))
            intro w w' hww
            intro _
            show (beforeEnd w.purchaseDate w'.saleDate &&
              beforeEnd w'.purchaseDate w.saleDate) = false
            exact hww
          exact List.Pairwise.sublist h2 hmap
        · intro a ha b hb hpid
          rcases h3 b hb with ⟨w, hw, rfl, hwsale⟩
          have hid : a.playerId = e.1 := hpid
          have hop := hopen e (List.mem_cons_self e ms') a ha hid
          cases hws : w.saleDate with
          | none => exact absurd hws hwsale
          | some s =>
            have hsle : s ≤ a.purchaseDate := hop.2 w hw s hws
            show (beforeEnd a.purchaseDate
                (toOwn e.1 (playerNameFor roster txs e.1) w).saleDate &&
              beforeEnd (toOwn e.1 (playerNameFor roster txs e.1) w).purchaseDate
                a.saleDate) = false
            show (beforeEnd a.purchaseDate w.saleDate &&
              beforeEnd w.purchaseDate a.saleDate) = false
            rw [hws]
            show (decide (a.purchaseDate < s) && beforeEnd w.purchaseDate a.saleDate)
              = false
            rw [decide_eq_false (by omega : ¬ a.purchaseDate < s)]
            exact Bool.false_and _
      · exact hnd'
      · exact fun e' he' => hshape e' (List.mem_cons_of_mem e he')
      · intro e' he' p hp hpe
        rcases List.mem_append.mp hp with hmem | hmem
        · exact hopen e' (List.mem_cons_of_mem e he') p hmem hpe
        · rcases h3 p hmem with ⟨w, hw, rfl, hwsale⟩
          refine absurd (show (e.1 : Int) ∈ ms'.map Prod.fst from ?_) hni
          rw [show (e.1 : Int) = e'.1 from hpe]
          exact List.mem_map.mpr ⟨e', he', rfl⟩
    rw [← h1] at hmain
    exact hmain

/-! ## Claims

### C3: the week inverse law -/

/-- C3 (corrected claim): when the normalized season start falls on a
Monday, getWeekNumber and getWeekDates are exact inverses: every date on or
after the season start lies in the inclusive range of its computed week,
and every date inside the range of a week w ≥ 1 maps back to w. -/
theorem C3_weekInverse_monday (s d w : Int) (hMonday : dayOfWeek s = 1) :
    (s ≤ d → inWeekRange d (getWeekDates (getWeekNumber d s) s) = true) ∧
    (1 ≤ w → inWeekRange d (getWeekDates w s) = true → getWeekNumber d s = w) := by
  constructor
  · intro hsd
    rw [getWeekDates_monday s _ hMonday, getWeekNumber_eq]
    simp only [inWeekRange, Bool.and_eq_true, decide_eq_true_eq]
    omega
  · intro hw hin
    rw [getWeekDates_monday s w hMonday] at hin
    simp only [inWeekRange, Bool.and_eq_true, decide_eq_true_eq] at hin
    rw [getWeekNumber_eq]
    omega

/-- Witness for C3: season start 2024-10-21 (a Monday, day 20017); the date
20027 falls in its computed week's range, and lying in week 2's range it
maps back to week 2. -/
theorem C3_weekInverse_monday_witness :
    inWeekRange 20027 (getWeekDates (getWeekNumber 20027 20017) 20017) = true ∧
    getWeekNumber 20027 20017 = 2 :=
  ⟨(C3_weekInverse_monday 20017 20027 2 (by decide)).1 (by decide),
   (C3_weekInverse_monday 20017 20027 2 (by decide)).2 (by decide) (by decide)⟩

/-- C3 counterexample: with the source's own default season start
2024-10-22 (a Tuesday), both directions of the claimed inverse law fail at
the date six days after the season start: the date is on or after the
season start yet lies outside the range of its computed week, and it lies
inside week 2's range yet maps to week 1. -/
theorem C3_counterexample :
    seasonStartDefault ≤ seasonStartDefault + 6 ∧
    inWeekRange (seasonStartDefault + 6)
      (getWeekDates (getWeekNumber (seasonStartDefault + 6) seasonStartDefault)
        seasonStartDefault) = false ∧
    inWeekRange (seasonStartDefault + 6) (getWeekDates 2 seasonStartDefault) = true ∧
    ¬ getWeekNumber (seasonStartDefault + 6) seasonStartDefault = 2 := by
  refine ⟨by decide, by decide, by decide, by decide⟩

/-! ### C6: the game filter of the Weekly Points Aggregator -/

/-- C6: a game contributes to calculateWeeklyPoints iff its normalized date
is on or after the normalized purchase date and, when a sale date exists,
strictly before the normalized sale date (purchase day inclusive, sale day
exclusive); and when the filter keeps no game the function returns the
empty list rather than failing. -/
theorem C6_filterSemantics (logs : List PlayerGameLog) (purchaseDate : Int)
    (seasonStartDay : Int) :
    (∀ g s, g ∈ filteredGames logs (normMs purchaseDate) ((some s).map normMs) ↔
      g ∈ logs ∧ normMs purchaseDate ≤ normalizeDateStr g.date ∧
        normalizeDateStr g.date < normMs s) ∧
    (∀ g, g ∈ filteredGames logs (normMs purchaseDate) (Option.map normMs none) ↔
      g ∈ logs ∧ normMs purchaseDate ≤ normalizeDateStr g.date) ∧
    (∀ saleDate, filteredGames logs (normMs purchaseDate) (saleDate.map normMs) = [] →
      calculateWeeklyPoints logs purchaseDate saleDate seasonStartDay = []) := by
  refine ⟨?_, ?_, ?_⟩
  · intro g s
    simp [filteredGames, List.mem_filter, gameInRange, and_assoc]
  · intro g
    simp [filteredGames, List.mem_filter, gameInRange]
  · intro saleDate h
    unfold calculateWeeklyPoints
    rw [h]
    rfl

/-- Witness for C6: a game on day 2 survives the window of days 0..4, and a
purchase on day 10 with no sale filters out that game and yields the empty
weekly list. -/
theorem C6_filterSemantics_witness :
    ((⟨"1970-01-03", 5⟩ : PlayerGameLog) ∈
      filteredGames [⟨"1970-01-03", 5⟩] (normMs 0) ((some (5 * dayMs)).map normMs)) ∧
    calculateWeeklyPoints [⟨"1970-01-03", 5⟩] (10 * dayMs) none seasonStartDefault = [] :=
  ⟨((C6_filterSemantics [⟨"1970-01-03", 5⟩] 0 seasonStartDefault).1
      ⟨"1970-01-03", 5⟩ (5 * dayMs)).mpr ⟨by decide, by decide, by decide⟩,
   (C6_filterSemantics [⟨"1970-01-03", 5⟩] (10 * dayMs) seasonStartDefault).2.2
      none (by decide)⟩

/-! ### C10: the duplicate test of the closed-period emission -/




/-- C10: the duplicate test of step 3 holds exactly when an already
collected period has the same playerId, userId and teamId and a purchase
time within 1000 ms (the saleDate is not compared); each closed working
period is appended iff that test fails on the periods collected so far; and
end to end, an open roster period 600 ms from a closed historical period of
the same holder suppresses it, while one 5000 ms away does not. -/
theorem C10_dedupSuppression :
    (∀ acc pid w, alreadyAdded acc pid w = true ↔
      ∃ p ∈ acc, p.playerId = pid ∧ p.userId = w.userId ∧ p.teamId = w.teamId ∧
        (p.purchaseDate - w.purchaseDate).natAbs < 1000) ∧
    (∀ acc pid name w h s, w.saleDate = some s →
      emitClosed acc pid name (w :: h) =
        emitClosed
          (if alreadyAdded acc pid w then acc
           else acc ++ [⟨w.userId, w.teamId, pid, name, w.purchaseDate, some s⟩])
          pid name h) ∧
    getPlayerOwnershipPeriods c10Txs c10RosterNear =
      [⟨"u1", "T1", 1, "P1", 600, none⟩] ∧
    getPlayerOwnershipPeriods c10Txs c10RosterFar =
      [⟨"u1", "T1", 1, "P1", 5000, none⟩,
       ⟨"u1", "T1", 1, "P1", 0, some (2 * dayMs)⟩] := by
  refine ⟨?_, ?_, by decide, by decide⟩
  · intro acc pid w
    simp [alreadyAdded, List.any_eq_true, Bool.and_eq_true, and_assoc]
  · intro acc pid name w h s hws
    simp only [emitClosed, List.foldl_cons, emitStep, hws]

/-- Witness for C10: the step equation applied to a singleton history with
a concrete closed working period. -/
theorem C10_dedupSuppression_witness :
    emitClosed [] 1 "P1" [⟨"u1", "T1", 0, some 7⟩] =
      emitClosed
        (if alreadyAdded [] 1 ⟨"u1", "T1", 0, some 7⟩ then []
         else [] ++ [⟨"u1", "T1", 1, "P1", 0, some 7⟩])
        1 "P1" [] :=
  C10_dedupSuppression.2.1 [] 1 "P1" ⟨"u1", "T1", 0, some 7⟩ [] 7 rfl

/-! ### C2: conservation of points -/

/-- C2 (corrected claim): when the reconstructed periods of each player are
pairwise non-overlapping at the day level and every period's user owns a
team, one run of calculateRankings conserves points: the sum of all
totalPoints across the output equals the sum over all periods of the
in-window game points, and for every player the points attributed to that
player (the sum over the player's periods of in-window points, exactly what
the run adds into the rankings) equal the sum of the player's game points
lying in the union of the player's windows -- nothing double-counted,
nothing dropped. -/
theorem C2_conservation (teams : List Team) (txs : List Transaction)
    (roster : List RosterRow) (logs : Int → List PlayerGameLog)
    (nameCmp : String → String → Int)
    (hdisj : List.Pairwise
      (fun p q => p.playerId = q.playerId → dayOverlap p q = false)
      (getPlayerOwnershipPeriods txs roster))
    (hcover : ∀ p ∈ getPlayerOwnershipPeriods txs roster,
      p.userId ∈ teams.map (fun t => t.userId)) :
    ((calculateRankings teams txs roster logs nameCmp).map
        (fun r => r.totalPoints)).sum =
      ((getPlayerOwnershipPeriods txs roster).map
        (fun p => periodPoints (logs p.playerId) p)).sum ∧
    ∀ pid : Int,
      attributedPoints (getPlayerOwnershipPeriods txs roster) logs pid =
        unionPoints (getPlayerOwnershipPeriods txs roster) logs pid := by
  refine ⟨?_, fun pid => attributed_eq_union _ logs pid hdisj⟩
  by_cases hne : teams = []
  · have hP : getPlayerOwnershipPeriods txs roster = [] := by
      cases hcase : getPlayerOwnershipPeriods txs roster with
      | nil => rfl
      | cons p ps =>
        have := hcover p (by rw [hcase]; exact List.mem_cons_self p ps)
        rw [hne] at this
        simp at this
    rw [hP, hne]
    simp [calculateRankings]
  · rw [calculateRankings_eq teams txs roster logs nameCmp hne]
    set P := getPlayerOwnershipPeriods txs roster with hPdef
    set M0 := teams.foldl (fun m t => mapSet m t.userId (initialRanking t)) [] with hM0def
    set F := P.foldl (applyPeriod teams logs) M0 with hFdef
    set V := F.map (fun e => e.2) with hVdef
    set R1 := jsSort (rankLe nameCmp) V with hR1def
    set MISS := (teams.filter
      (fun t => !(R1.map (fun r => r.userId)).contains t.userId)).map initialRanking
      with hMISSdef
    have hsome : ∀ p ∈ P, (mapGet M0 p.userId).isSome := by
      intro p hp
      exact foldSet_isSome teams [] p.userId (Or.inl (hcover p hp))
    have hM0total : mapTotal M0 = 0 := by
      refine sum_map_eq_zero M0 _ ?_
      intro e he
      exact foldSet_total_zero teams [] (fun e h => absurd h (by simp)) e he
    have hMISStotal : (MISS.map (fun r => r.totalPoints)).sum = 0 := by
      rw [hMISSdef, List.map_map]
      exact sum_map_eq_zero _ _ (fun t _ => rfl)
    calc ((jsSort (rankLe nameCmp) (R1 ++ MISS)).map (fun r => r.totalPoints)).sum
        = ((R1 ++ MISS).map (fun r => r.totalPoints)).sum :=
          List.Perm.sum_eq (List.Perm.map _ (jsSort_perm _ _))
      _ = (R1.map (fun r => r.totalPoints)).sum +
            (MISS.map (fun r => r.totalPoints)).sum := by
          rw [List.map_append, List.sum_append]
      _ = (V.map (fun r => r.totalPoints)).sum := by
          rw [hMISStotal, List.Perm.sum_eq (List.Perm.map _ (jsSort_perm _ _))]
          ring
      _ = mapTotal F := by
          rw [hVdef, List.map_map]
          rfl
      _ = (P.map (fun p => periodPoints (logs p.playerId) p)).sum := by
          rw [hFdef, foldPeriods_total teams logs P M0 hsome, hM0total]
          ring

/-- Witness for C2: the chained history c2wTxs/c2wRoster yields
day-disjoint periods owned by the two teams; the run's total equals the
per-period sums and player 1's attributed points equal the union sum. -/
theorem C2_conservation_witness :
    ((calculateRankings c2Teams c2wTxs c2wRoster c2Logs (fun _ _ => 0)).map
        (fun r => r.totalPoints)).sum =
      ((getPlayerOwnershipPeriods c2wTxs c2wRoster).map
        (fun p => periodPoints (c2Logs p.playerId) p)).sum ∧
    attributedPoints (getPlayerOwnershipPeriods c2wTxs c2wRoster) c2Logs 1 =
      unionPoints (getPlayerOwnershipPeriods c2wTxs c2wRoster) c2Logs 1 :=
  ⟨(C2_conservation c2Teams c2wTxs c2wRoster c2Logs (fun _ _ => 0)
      (by decide) (by decide)).1,
   (C2_conservation c2Teams c2wTxs c2wRoster c2Logs (fun _ _ => 0)
      (by decide) (by decide)).2 1⟩

/-- C2 counterexample: with the forked history c2Txs, one run attributes
the single day-2 game of player 1 twice -- the output totals sum to 14 --
while the game points in the union of player 1's ownership intervals are 7;
the claimed conservation equation fails as soon as the reconstructed
periods overlap. -/
theorem C2_counterexample :
    ((calculateRankings c2Teams c2Txs [] c2Logs (fun _ _ => 0)).map
        (fun r => r.totalPoints)).sum = 14 ∧
    unionPoints (getPlayerOwnershipPeriods c2Txs []) c2Logs 1 = 7 ∧
    attributedPoints (getPlayerOwnershipPeriods c2Txs []) c2Logs 1 = 14 := by
  refine ⟨by decide, by decide, by decide⟩

/-! ### C4: completeness of the ranking output -/

/-- C4 (corrected claim): when the team list has pairwise-distinct team ids
and pairwise-distinct owner user ids (one team per user), and every derived
ownership period belongs to one of those users, then every team appears in
the output of calculateRankings exactly once (counted by its teamId), and a
team none of whose owner's periods exist appears with totalPoints 0 and an
empty weeklyBreakdown.  Without distinct owners the claim fails: rankings
are keyed by user id, so of two teams of the same user only the later one
survives. -/
theorem C4_completeness (teams : List Team) (txs : List Transaction)
    (roster : List RosterRow) (logs : Int → List PlayerGameLog)
    (nameCmp : String → String → Int)
    (hids : (teams.map (fun t => t.id)).Nodup)
    (husers : (teams.map (fun t => t.userId)).Nodup)
    (hcover : ∀ p ∈ getPlayerOwnershipPeriods txs roster,
      p.userId ∈ teams.map (fun t => t.userId)) :
    ∀ t ∈ teams,
      (calculateRankings teams txs roster logs nameCmp).countP
          (fun r => r.teamId == t.id) = 1 ∧
      ((∀ p ∈ getPlayerOwnershipPeriods txs roster, p.userId ≠ t.userId) →
        ∃ r ∈ calculateRankings teams txs roster logs nameCmp,
          r.teamId = t.id ∧ r.totalPoints = 0 ∧ r.weeklyBreakdown = []) := by
  intro t ht
  have hne : teams ≠ [] := by
    intro h
    rw [h] at ht
    simp at ht
  rw [calculateRankings_eq teams txs roster logs nameCmp hne]
  set P := getPlayerOwnershipPeriods txs roster with hPdef
  set M0 := teams.foldl (fun m t => mapSet m t.userId (initialRanking t)) [] with hM0def
  set F := P.foldl (applyPeriod teams logs) M0 with hFdef
  set V := F.map (fun e => e.2) with hVdef
  set R1 := jsSort (rankLe nameCmp) V with hR1def
  set MISS := (teams.filter
    (fun t => !(R1.map (fun r => r.userId)).contains t.userId)).map initialRanking
    with hMISSdef
  -- the initial map is one entry per team, in order
  have hinit : M0 = teams.map (fun t => (t.userId, initialRanking t)) :=
    initMap_eq teams husers
  -- every period's user has an entry in the initial map
  have hsome : ∀ p ∈ P, (mapGet M0 p.userId).isSome := by
    intro p hp
    rw [hinit]
    apply mapGet_isSome_of_mem_keys
    rw [List.map_map]
    exact hcover p hp
  -- the key fields of the final map are those of the team list
  have hfold : F.map rankKeyFields = teams.map (fun t =>
      (t.userId, t.userId, t.id, t.teamName)) := by
    rw [hFdef, foldPeriods_rankKeyFields teams logs P M0 hsome, hinit, List.map_map]
    rfl
  have hteamIds : F.map (fun e => e.2.teamId) = teams.map (fun t => t.id) := by
    have h := congrArg (List.map
      (fun x : String × String × String × String => x.2.2.1)) hfold
    rw [List.map_map, List.map_map] at h
    exact h
  have huserIds : F.map (fun e => e.2.userId) = teams.map (fun t => t.userId) := by
    have h := congrArg (List.map
      (fun x : String × String × String × String => x.2.1)) hfold
    rw [List.map_map, List.map_map] at h
    exact h
  -- the value list carries each team user exactly once
  have hVusers : V.map (fun r => r.userId) = teams.map (fun t => t.userId) := by
    rw [hVdef, List.map_map]
    exact huserIds
  -- no team is missing from the ranked list
  have hmiss : MISS = [] := by
    rw [hMISSdef]
    have : teams.filter
        (fun t => !(R1.map (fun r => r.userId)).contains t.userId) = [] := by
      rw [List.filter_eq_nil_iff]
      intro t' ht' hcontr
      have hmem : t'.userId ∈ R1.map (fun r => r.userId) := by
        refine ((jsSort_perm (rankLe nameCmp) V).map (fun r => r.userId)).mem_iff.mpr ?_
        rw [hVusers]
        exact List.mem_map.mpr ⟨t', ht', rfl⟩
      have hcont : (R1.map (fun r => r.userId)).contains t'.userId = true :=
        List.elem_iff.mpr hmem
      rw [hcont] at hcontr
      simp at hcontr
    rw [this]
    rfl
  constructor
  · -- exactly one output entry per team id
    rw [(jsSort_perm (rankLe nameCmp) (R1 ++ MISS)).countP_eq, List.countP_append,
      hmiss]
    have hR1 : R1.countP (fun r => r.teamId == t.id) =
        V.countP (fun r => r.teamId == t.id) :=
      (jsSort_perm (rankLe nameCmp) V).countP_eq _
    rw [hR1]
    have hVcount : V.countP (fun r => r.teamId == t.id) =
        List.count t.id (teams.map (fun t => t.id)) := by
      rw [hVdef, List.countP_map, List.count_eq_countP, ← hteamIds, List.countP_map]
      rfl
    rw [hVcount, List.count_eq_one_of_mem hids (List.mem_map.mpr ⟨t, ht, rfl⟩)]
    rfl
  · -- a team whose user owns no period keeps the zero ranking
    intro hno
    have hzero : mapGet F t.userId = some (initialRanking t) := by
      rw [hFdef, foldPeriods_get_ne teams logs P t.userId M0 hno, hinit]
      exact initMap_get teams husers t ht
    have hmemF : (t.userId, initialRanking t) ∈ F := mapGet_some_mem _ _ _ hzero
    have hmemV : initialRanking t ∈ V :=
      List.mem_map.mpr ⟨(t.userId, initialRanking t), hmemF, rfl⟩
    have hmemOut : initialRanking t ∈
        jsSort (rankLe nameCmp) (R1 ++ MISS) := by
      refine (jsSort_perm (rankLe nameCmp) (R1 ++ MISS)).mem_iff.mpr ?_
      refine List.mem_append_left MISS ?_
      exact (jsSort_perm (rankLe nameCmp) V).mem_iff.mpr hmemV
    exact ⟨initialRanking t, hmemOut, rfl, rfl, rfl⟩

/-- Witness for C4: two teams of distinct users with no transactions and no
roster: each appears exactly once, at zero points. -/
theorem C4_completeness_witness :
    ((calculateRankings [⟨"T1", "u1", "Alpha"⟩, ⟨"T2", "u2", "Beta"⟩] [] []
        (fun _ => []) (fun _ _ => 0)).countP (fun r => r.teamId == "T1") = 1 ∧
      ((∀ p ∈ getPlayerOwnershipPeriods [] [], p.userId ≠ "u1") →
        ∃ r ∈ calculateRankings [⟨"T1", "u1", "Alpha"⟩, ⟨"T2", "u2", "Beta"⟩] [] []
            (fun _ => []) (fun _ _ => 0),
          r.teamId = "T1" ∧ r.totalPoints = 0 ∧ r.weeklyBreakdown = [])) :=
  C4_completeness [⟨"T1", "u1", "Alpha"⟩, ⟨"T2", "u2", "Beta"⟩] [] []
    (fun _ => []) (fun _ _ => 0) (by decide) (by decide) (by decide)
    ⟨"T1", "u1", "Alpha"⟩ (by decide)

/-- The team list of the C4 counterexample: one user owning two teams. -/
def c4Teams : List Team := [⟨"T1", "u", "Alpha"⟩, ⟨"T2", "u", "Beta"⟩]

/-- C4 counterexample: with one user owning two teams (and no ownership
data at all), the output of calculateRankings contains no entry for the
first team's teamId -- the rankings map is keyed by user id, so the second
team overwrites the first -- refuting the claim that every team row appears
exactly once even when one user owns more than one team. -/
theorem C4_counterexample :
    (calculateRankings c4Teams [] [] (fun _ => []) (fun _ _ => 0)).countP
        (fun r => r.teamId == "T1") = 0 ∧
    calculateRankings c4Teams [] [] (fun _ => []) (fun _ _ => 0) =
      [⟨"u", "T2", "Beta", 0, []⟩] := by
  exact ⟨by decide, by decide⟩

/-! ### C5: the per-transaction update and the roster reconciliation -/



/-- C5 (corrected claim): processing a transaction closes the seller's
first (oldest) still-open period for that player when one exists, appends
an open buyer period, and silently skips the close step when no open seller
period exists; and a current roster row reuses the purchase date of the
first open period matching its exact user and team (ignoring the row's own
purchasedAt), synthesizing a fresh open period from purchasedAt only when
no such period exists. -/
theorem C5_transactionStep :
    (∀ u tm t h, (∀ p ∈ h, ¬(p.userId = u ∧ p.teamId = tm ∧ p.saleDate = none)) →
      closeFirstOpen u tm t h = h) ∧
    (∀ u tm t pre p post,
      (∀ q ∈ pre, ¬(q.userId = u ∧ q.teamId = tm ∧ q.saleDate = none)) →
      p.userId = u → p.teamId = tm → p.saleDate = none →
      closeFirstOpen u tm t (pre ++ p :: post) =
        pre ++ { p with saleDate := some t } :: post) ∧
    (∀ m tx, isFalsyStr tx.buyerUserId = false → isFalsyStr tx.sellerUserId = false →
      processTx m tx = histSet m tx.playerId
        (closeFirstOpen (tx.sellerUserId.getD "") tx.sellerTeamId tx.createdAt
            (histGet m tx.playerId) ++
          [⟨tx.buyerUserId.getD "", tx.buyerTeamId, tx.createdAt, none⟩])) ∧
    (∀ m acc r p, isFalsyStr r.userId = false →
      (histGet m r.playerId).find?
          (fun q => q.userId == r.userId.getD "" && q.teamId == r.teamId &&
            q.saleDate == none) = some p →
      rosterEmit m acc r =
        acc ++ [⟨r.userId.getD "", r.teamId, r.playerId, r.playerName,
          p.purchaseDate, none⟩]) ∧
    (∀ m acc r, isFalsyStr r.userId = false →
      (histGet m r.playerId).find?
          (fun q => q.userId == r.userId.getD "" && q.teamId == r.teamId &&
            q.saleDate == none) = none →
      rosterEmit m acc r =
        acc ++ [⟨r.userId.getD "", r.teamId, r.playerId, r.playerName,
          purchaseOf r, none⟩]) := by
  refine ⟨?_, ?_, ?_, ?_, ?_⟩
  · intro u tm t h hnone
    induction h with
    | nil => rfl
    | cons p ps ih =>
      have hp := hnone p (List.mem_cons_self p ps)
      rw [closeFirstOpen, if_neg hp, ih (fun q hq => hnone q (List.mem_cons_of_mem p hq))]
  · intro u tm t pre p post hpre hu htm hs
    induction pre with
    | nil =>
      simp only [List.nil_append]
      rw [closeFirstOpen, if_pos ⟨hu, htm, hs⟩]
    | cons q qre ih =>
      have hq := hpre q (List.mem_cons_self q qre)
      simp only [List.cons_append]
      rw [closeFirstOpen, if_neg hq,
        ih (fun x hx => hpre x (List.mem_cons_of_mem q hx))]
  · intro m tx hb hs
    unfold processTx
    rw [hb, hs]
    rfl
  · intro m acc r p hu hfind
    unfold rosterEmit
    rw [hu]
    simp only [Bool.false_eq_true, if_false, hfind]
  · intro m acc r hu hfind
    unfold rosterEmit
    rw [hu]
    simp only [Bool.false_eq_true, if_false, hfind]

/-- Witness for C5: the transaction-step equation on a concrete history
with an open seller period, via the first-match characterization. -/
theorem C5_transactionStep_witness :
    closeFirstOpen "uA" "TA" 7 [⟨"uB", "TB", 0, none⟩, ⟨"uA", "TA", 1, none⟩,
        ⟨"uA", "TA", 2, none⟩] =
      [⟨"uB", "TB", 0, none⟩, ⟨"uA", "TA", 1, some 7⟩, ⟨"uA", "TA", 2, none⟩] :=
  C5_transactionStep.2.1 "uA" "TA" 7 [⟨"uB", "TB", 0, none⟩] ⟨"uA", "TA", 1, none⟩
    [⟨"uA", "TA", 2, none⟩] (by decide) rfl rfl rfl

/-- C5 counterexample: in c5Txs the seller uA has two still-open periods
(purchased at 0 and at day 1) when the sale at day 3 arrives; the algorithm
closes the one purchased at 0 -- the oldest -- and leaves the most recent
(day 1) open, contradicting the claim that the most recent still-open
period is closed.  The reconstructed output contains the closed period
starting at 0, not one starting at day 1. -/
theorem C5_counterexample :
    histGet (processTransactions c5Txs) 1 =
      [⟨"uA", "TA", 0, some (3 * dayMs)⟩, ⟨"uA", "TA", 1 * dayMs, none⟩,
       ⟨"uB", "TB", 3 * dayMs, none⟩] ∧
    (∃ p ∈ histGet (processTransactions c5Txs) 1,
      p.purchaseDate = 1 * dayMs ∧ p.saleDate = none) ∧
    getPlayerOwnershipPeriods c5Txs c5Roster =
      [⟨"uB", "TB", 1, "P1", 3 * dayMs, none⟩,
       ⟨"uA", "TA", 1, "P1", 0, some (3 * dayMs)⟩] := by
  refine ⟨by decide, ?_, by decide⟩
  exact ⟨⟨"uA", "TA", 1 * dayMs, none⟩, by decide, rfl, rfl⟩

/-! ### C7: ordering and determinism of the final ranking -/

theorem rankLe_total (nameCmp : String → String → Int)
    (hTotal : ∀ x y, nameCmp x y ≤ 0 ∨ nameCmp y x ≤ 0) :
    ∀ a b, rankLe nameCmp a b = true ∨ rankLe nameCmp b a = true := by
  intro a b
  unfold rankLe
  by_cases h : a.totalPoints = b.totalPoints
  · rw [if_pos h, if_pos h.symm]
    simpa [decide_eq_true_eq] using hTotal a.teamName b.teamName
  · rw [if_neg h, if_neg (Ne.symm h)]
    simp only [decide_eq_true_eq]
    omega

theorem rankLe_trans (nameCmp : String → String → Int)
    (hTrans : ∀ x y z, nameCmp x y ≤ 0 → nameCmp y z ≤ 0 → nameCmp x z ≤ 0) :
    ∀ a b c, rankLe nameCmp a b = true → rankLe nameCmp b c = true →
      rankLe nameCmp a c = true := by
  intro a b c hab hbc
  unfold rankLe at hab hbc ⊢
  by_cases h1 : a.totalPoints = b.totalPoints <;>
    by_cases h2 : b.totalPoints = c.totalPoints
  · rw [if_pos h1] at hab
    rw [if_pos h2] at hbc
    rw [if_pos (h1.trans h2)]
    simp only [decide_eq_true_eq] at hab hbc ⊢
    exact hTrans _ _ _ hab hbc
  · rw [if_pos h1] at hab
    rw [if_neg h2] at hbc
    simp only [decide_eq_true_eq] at hbc
    rw [if_neg (by omega : ¬ a.totalPoints = c.totalPoints)]
    simp only [decide_eq_true_eq]
    omega
  · rw [if_neg h1] at hab
    rw [if_pos h2] at hbc
    simp only [decide_eq_true_eq] at hab
    rw [if_neg (by omega : ¬ a.totalPoints = c.totalPoints)]
    simp only [decide_eq_true_eq]
    omega
  · rw [if_neg h1] at hab
    rw [if_neg h2] at hbc
    simp only [decide_eq_true_eq] at hab hbc
    rw [if_neg (by omega : ¬ a.totalPoints = c.totalPoints)]
    simp only [decide_eq_true_eq]
    omega

/-- C7: for any consistent name comparator (total and transitive, the
ECMAScript requirement on a sort comparator, satisfied by localeCompare
within one fixed host locale), the list returned by calculateRankings is
pairwise ordered by descending totalPoints with ties ordered by the name
comparator ascending; and the computation is a pure function, so two runs
on identical inputs return identical results. -/
theorem C7_sortedDeterministic (teams : List Team) (txs : List Transaction)
    (roster : List RosterRow) (logs : Int → List PlayerGameLog)
    (nameCmp : String → String → Int)
    (hTotal : ∀ x y, nameCmp x y ≤ 0 ∨ nameCmp y x ≤ 0)
    (hTrans : ∀ x y z, nameCmp x y ≤ 0 → nameCmp y z ≤ 0 → nameCmp x z ≤ 0) :
    List.Pairwise (fun a b => rankLe nameCmp a b = true)
      (calculateRankings teams txs roster logs nameCmp) ∧
    calculateRankings teams txs roster logs nameCmp =
      calculateRankings teams txs roster logs nameCmp := by
  refine ⟨?_, rfl⟩
  unfold calculateRankings
  cases hte : teams.isEmpty with
  | true => simp
  | false =>
    simp only [hte, Bool.false_eq_true, if_false]
    exact jsSort_pairwise _ (rankLe_total nameCmp hTotal) (rankLe_trans nameCmp hTrans) _

/-- Witness for C7: a two-team instance with the trivial (everywhere-equal)
name comparator, which is total and transitive. -/
theorem C7_sortedDeterministic_witness :
    List.Pairwise (fun a b => rankLe (fun _ _ => (0 : Int)) a b = true)
      (calculateRankings [⟨"T1", "u1", "Alpha"⟩, ⟨"T2", "u2", "Beta"⟩] [] []
        (fun _ => []) (fun _ _ => 0)) ∧
    calculateRankings [⟨"T1", "u1", "Alpha"⟩, ⟨"T2", "u2", "Beta"⟩] [] []
        (fun _ => []) (fun _ _ => 0) =
      calculateRankings [⟨"T1", "u1", "Alpha"⟩, ⟨"T2", "u2", "Beta"⟩] [] []
        (fun _ => []) (fun _ _ => 0) :=
  C7_sortedDeterministic [⟨"T1", "u1", "Alpha"⟩, ⟨"T2", "u2", "Beta"⟩] [] []
    (fun _ => []) (fun _ _ => 0)
    (fun _ _ => Or.inl (by norm_num)) (fun _ _ _ _ _ => by norm_num)

/-! ### C8: totality of the Date Normalizer -/

/-- C8: normalizeDateStr is total; a string matching none of the accepted
formats (the month-name pattern, a slash-separated date, the compact
8-digit date, or a parsable ISO date) yields the 1970-01-01 sentinel
(day 0) instead of an error, and each documented format parses to the
correct calendar day. -/
theorem C8_normalizeTotal :
    (∀ s : String, matchMmmDdYyyy s = none → s.toList.contains '/' = false →
      ¬(s.toList.length = 8 ∧ s.toList.all Char.isDigit) → jsDateParse s = none →
      normalizeDateStr s = 0) ∧
    normalizeDateStr "2024-10-22" = daysFromCivil 2024 10 22 ∧
    normalizeDateStr "10/22/2024" = daysFromCivil 2024 10 22 ∧
    normalizeDateStr "Oct 22, 2025" = daysFromCivil 2025 10 22 ∧
    normalizeDateStr "20241022" = daysFromCivil 2024 10 22 ∧
    normalizeDateStr "not a date" = 0 ∧
    normalizeDateStr "" = 0 := by
  refine ⟨?_, by decide, by decide, by decide, by decide, by decide, by decide⟩
  intro s h1 h2 h3 h4
  unfold normalizeDateStr parseDateStr
  rw [h1, h2, if_neg h3, h4]
  simp

/-- Witness for C8: the sentinel branch applied to a concrete unparsable
string. -/
theorem C8_normalizeTotal_witness : normalizeDateStr "hello world" = 0 :=
  C8_normalizeTotal.1 "hello world" (by decide) (by decide) (by decide) (by decide)

/-! ### C9: the ranking cache -/

theorem getRankingsFromCache_fresh (store : List CacheRow) (maxAgeMinutes now : Int)
    (hne : store ≠ [])
    (hfresh : ∀ r ∈ store, now - r.calculatedAt ≤ maxAgeMinutes * 60000)
    (hsorted : List.Pairwise (fun a b => b.totalPoints ≤ a.totalPoints) store) :
    getRankingsFromCache store maxAgeMinutes now = some (store.map storedRanking) := by
  simp only [getRankingsFromCache]
  have hfil : store.filter
      (fun r => decide (now - maxAgeMinutes * 60000 ≤ r.calculatedAt)) = store := by
    rw [List.filter_eq_self]
    intro r hr
    simp only [decide_eq_true_eq]
    have := hfresh r hr
    omega
  rw [hfil, jsSort_of_pairwise _ _ (hsorted.imp (fun h => by simpa using h))]
  simp [List.isEmpty_iff, hne]

theorem getRankingsFromCache_stale (store : List CacheRow) (maxAgeMinutes now : Int)
    (hstale : ∀ r ∈ store, maxAgeMinutes * 60000 < now - r.calculatedAt) :
    getRankingsFromCache store maxAgeMinutes now = none := by
  simp only [getRankingsFromCache]
  have hfil : store.filter
      (fun r => decide (now - maxAgeMinutes * 60000 ≤ r.calculatedAt)) = [] := by
    rw [List.filter_eq_nil_iff]
    intro r hr
    simp only [decide_eq_true_eq]
    have := hstale r hr
    omega
  rw [hfil]
  rfl

/-- C9: when every stored row is fresh (now - calculatedAt within the
maximum age, inclusive) the cached snapshot is returned verbatim -- every
stored row, in order, with its breakdown -- and the store is untouched;
when the snapshot is expired the ranking calculator runs, its result is
persisted with the write time, and the fresh result is returned; and each
persisted write replaces any prior row for its (userId, teamId) key while
leaving rows with other keys in place. -/
theorem C9_cacheSemantics (store : List CacheRow) (maxAgeMinutes now : Int)
    (teams : List Team) (txs : List Transaction) (roster : List RosterRow)
    (logs : Int → List PlayerGameLog) (nameCmp : String → String → Int) :
    (store ≠ [] →
      (∀ r ∈ store, now - r.calculatedAt ≤ maxAgeMinutes * 60000) →
      List.Pairwise (fun a b => b.totalPoints ≤ a.totalPoints) store →
      getRankingsWithCache store maxAgeMinutes now teams txs roster logs nameCmp =
        (store.map storedRanking, store)) ∧
    ((∀ r ∈ store, maxAgeMinutes * 60000 < now - r.calculatedAt) →
      getRankingsWithCache store maxAgeMinutes now teams txs roster logs nameCmp =
        (calculateRankings teams txs roster logs nameCmp,
         saveRankingsToCache store (calculateRankings teams txs roster logs nameCmp) now)) ∧
    (∀ (st : List CacheRow) (row : CacheRow),
      row ∈ upsertRow st row ∧
      (∀ r' ∈ upsertRow st row,
        r'.userId = row.userId ∧ r'.teamId = row.teamId → r' = row) ∧
      (∀ r' ∈ st,
        ¬(r'.userId = row.userId ∧ r'.teamId = row.teamId) → r' ∈ upsertRow st row)) := by
  refine ⟨?_, ?_, ?_⟩
  · intro hne hfresh hsorted
    unfold getRankingsWithCache
    rw [getRankingsFromCache_fresh store maxAgeMinutes now hne hfresh hsorted]
  · intro hstale
    unfold getRankingsWithCache
    rw [getRankingsFromCache_stale store maxAgeMinutes now hstale]
    rfl
  · intro st row
    refine ⟨?_, ?_, ?_⟩
    · unfold upsertRow
      cases hany : st.any (fun r => r.userId == row.userId && r.teamId == row.teamId) with
      | true =>
        simp only [if_true]
        rcases List.any_eq_true.mp hany with ⟨x, hx, hkx⟩
        exact List.mem_map.mpr ⟨x, hx, by rw [if_pos hkx]⟩
      | false =>
        simp only [Bool.false_eq_true, if_false]
        exact List.mem_append_right st (List.mem_singleton.mpr rfl)
    · intro r' hr' hkey
      unfold upsertRow at hr'
      by_cases hany : (st.any (fun r => r.userId == row.userId && r.teamId == row.teamId)) = true
      · rw [if_pos hany] at hr'
        rcases List.mem_map.mp hr' with ⟨x, hx, hfx⟩
        by_cases hkx : (x.userId == row.userId && x.teamId == row.teamId) = true
        · rw [if_pos hkx] at hfx
          exact hfx.symm
        · rw [if_neg hkx] at hfx
          subst hfx
          exact absurd (by simp [Bool.and_eq_true, beq_iff_eq, hkey.1, hkey.2]) hkx
      · rw [if_neg hany] at hr'
        have hany' : st.any (fun r => r.userId == row.userId && r.teamId == row.teamId) = false := by
          revert hany
          cases st.any (fun r => r.userId == row.userId && r.teamId == row.teamId) <;> simp
        rcases List.mem_append.mp hr' with hmem | hmem
        · have := List.any_eq_false.mp hany' r' hmem
          exact absurd (by simp [Bool.and_eq_true, beq_iff_eq, hkey.1, hkey.2]) this
        · exact (List.mem_singleton.mp hmem)
    · intro r' hr' hkey
      unfold upsertRow
      cases hany : st.any (fun r => r.userId == row.userId && r.teamId == row.teamId) with
      | true =>
        simp only [if_true]
        refine List.mem_map.mpr ⟨r', hr', ?_⟩
        rw [if_neg]
        simp only [Bool.and_eq_true, beq_iff_eq]
        exact fun h => hkey h
      | false =>
        simp only [Bool.false_eq_true, if_false]
        exact List.mem_append_left _ hr'

/-- Witness for C9: a one-row store written at time 1000 read back at time
1000 with a 30-minute maximum age is served verbatim. -/
theorem C9_cacheSemantics_witness :
    getRankingsWithCache [⟨"u1", "T1", "Alpha", 5, [], 1000⟩] 30 1000 [] [] []
        (fun _ => []) (fun _ _ => 0) =
      ([⟨"u1", "T1", "Alpha", 5, []⟩], [⟨"u1", "T1", "Alpha", 5, [], 1000⟩]) :=
  ((C9_cacheSemantics [⟨"u1", "T1", "Alpha", 5, [], 1000⟩] 30 1000 [] [] []
      (fun _ => []) (fun _ _ => 0)).1
    (by decide) (by decide) (by decide)).trans (by decide)

/-! ### C1: interval disjointness of the reconstructed ownership periods -/

/-- C1 (corrected claim): the ownership periods that
getPlayerOwnershipPeriods reconstructs are pairwise non-overlapping per
player -- boundary contact, one period's saleDate equal to the next
period's purchaseDate, being permitted -- provided the transaction log is
a single well-formed chain of custody for every player (each sale is made
by the player's current holder, in chronological order) and every roster
row names the final holder recorded by its player's chain.  Without these
hypotheses the property fails: on a forked transaction history the
reconstructor emits overlapping periods for different users (see the
counterexample). -/
theorem C1_intervalDisjointness (txs : List Transaction) (roster : List RosterRow)
    (h1 : wellFormedTxs txs = true)
    (h2 : (roster.map (fun r => r.playerId)).Nodup)
    (h3 : rosterMatchesChain txs roster = true) :
    periodsDisjoint (getPlayerOwnershipPeriods txs roster) := by
  show List.Pairwise (fun p q => p.playerId = q.playerId → overlapB p q = false)
    ((processTransactions txs).foldl
      (fun acc e => emitClosed acc e.1 (playerNameFor roster txs e.1) e.2)
      (rosterStep (processTransactions txs) roster))
  rw [rosterStep_eq_filterMap]
  have h2' : List.Pairwise (fun a b => a ≠ b) (roster.map (fun r => r.playerId)) := h2
  apply emitFold_pairwise
  · exact pairwise_filterMap_of_pairwise (rosterPeriod (processTransactions txs))
      (fun r r' hne p hp q hq hpq =>
        absurd (show r.playerId = r'.playerId from by
          have ha := (rosterPeriod_some _ r p hp).1
          have hb := (rosterPeriod_some _ r' q hq).1
          omega) hne)
      roster (List.pairwise_map.mp h2')
  · exact processTransactions_keys_nodup txs
  · intro e he
    rcases memHist_eq_chain txs h1 e he with hnil | ⟨t, rest, htf, hch, he2⟩
    · rw [hnil]
      simp
    · rw [he2]
      exact chainFrom_pairwise rest (buyerUser t) t.buyerTeamId t.createdAt hch
  · intro e he p hp hpe
    rcases List.mem_filterMap.mp hp with ⟨r, hr, hrp⟩
    rcases rosterPeriod_some _ r p hrp with ⟨hpid, hsale, hfal⟩
    refine ⟨hsale, ?_⟩
    intro w hw s hws
    rcases memHist_eq_chain txs h1 e he with hnil | ⟨t, rest, htf, hch, he2⟩
    · rw [hnil] at hw
      simp at hw
    · have hrpid : r.playerId = e.1 := by omega
      have htfr : txsFor txs r.playerId = t :: rest := by
        rw [hrpid]
        exact htf
      rcases rosterMatchesChain_spec txs roster h3 r hr hfal t rest htfr with ⟨hu, htm⟩
      have hhist : histGet (processTransactions txs) r.playerId =
          chainFrom (buyerUser t) t.buyerTeamId t.createdAt rest := by
        rw [hrpid,
          histGet_of_mem_nodup _ (processTransactions_keys_nodup txs) e he, he2]
      have hrp2 := rosterPeriod_chain (processTransactions txs) r t rest hfal hu htm hhist
      rw [hrp2] at hrp
      have hpv := Option.some.inj hrp
      have hpd : p.purchaseDate = chainEnd t.createdAt rest := by
        rw [← hpv]
      have hsle : s ≤ chainEnd t.createdAt rest := by
        refine chainFrom_sale_le_end rest (buyerUser t) t.buyerTeamId t.createdAt hch
          w ?_ s hws
        rw [← he2]
        exact hw
      rw [hpd]
      exact hsle

/-- Witness for C1: the well-formed two-transaction chain c2wTxs with its
matching roster yields disjoint periods. -/
theorem C1_intervalDisjointness_witness :
    wellFormedTxs c2wTxs = true ∧
    ((c2wRoster.map (fun r => r.playerId)).Nodup ∧
      rosterMatchesChain c2wTxs c2wRoster = true) ∧
    periodsDisjoint (getPlayerOwnershipPeriods c2wTxs c2wRoster) :=
  ⟨by decide, ⟨by decide, by decide⟩,
    C1_intervalDisjointness c2wTxs c2wRoster (by decide) (by decide) (by decide)⟩

/-- C1 counterexample: on the forked history c2Txs (two buyers acquire the
same player from unrelated sellers at days 0 and 1, then each sells) the
reconstructor emits a period for user u1 covering [0, day 3) and one for
user u2 covering [day 1, day 4): two periods of the same player and
different users that overlap well beyond boundary contact, so the claimed
invariant does not hold of the code unconditionally. -/
theorem C1_counterexample :
    (∃ p ∈ getPlayerOwnershipPeriods c2Txs [],
      ∃ q ∈ getPlayerOwnershipPeriods c2Txs [],
        p.userId = "u1" ∧ q.userId = "u2" ∧ p.playerId = q.playerId ∧
          overlapB p q = true) ∧
    ¬ periodsDisjoint (getPlayerOwnershipPeriods c2Txs []) := by
  constructor
  · decide
  · unfold periodsDisjoint
    decide

end Fantasy

example : Fantasy.normalizeDateStr "2024-10-22" = 20018 := by decide
example : Fantasy.normalizeDateStr "10/22/2024" = 20018 := by decide
example : Fantasy.normalizeDateStr "Oct 22, 2024" = 20018 := by decide
example : Fantasy.normalizeDateStr "20241022" = 20018 := by decide
example : Fantasy.normalizeDateStr "not a date" = 0 := by decide
example : Fantasy.normalizeDateStr "1970-01-03" = 2 := by decide

example : Fantasy.daysFromCivil 1970 1 1 = 0 := by decide
example : Fantasy.daysFromCivil 2024 10 22 = 20018 := by decide
example : Fantasy.civilFromDays 20018 = (2024, 10, 22) := by decide
example : Fantasy.dayOfWeek 20018 = 2 := by decide
example : Fantasy.jsParseInt "  42abc" = some 42 := by decide
example : Fantasy.jsParseInt "0x1A" = some 26 := by decide
example : Fantasy.jsParseInt "abc" = none := by decide
